import Mathlib

/-!
Verification of the physics snapshot codec repository (packages `bit`,
`main` = physicscompress, `physics` = physicscompress/physics).

The development shallowly embeds the Go sources: machine integers are
modelled as `Nat`/`Int` with explicit `% 2^64` where uint64 overflow can
matter, byte sinks/sources are lists of bytes, and the adaptive binary
arithmetic coder (an external consumed contract in the spec) is modelled
as a lossless channel of coded values.  Loops are embedded as fuel-based
structural recursions (the fuel arguments are always large enough for the
loop bounds of the source, as proved in the accompanying lemmas), so that
every definition evaluates by kernel reduction.
-/

/-- Low `w` bits of `x`, least significant first. -/
def bitsOfNat : ℕ → ℕ → List Bool
  | 0, _ => []
  | w + 1, x => (x % 2 = 1) :: bitsOfNat w (x / 2)

/-- Natural number denoted by a little-endian bit list. -/
def natOfBits : List Bool → ℕ
  | [] => 0
  | b :: bs => (if b then 1 else 0) + 2 * natOfBits bs

/-- Bit expansion of a byte sequence, little-endian within each byte. -/
def bytesBits : List ℕ → List Bool
  | [] => []
  | b :: bs => bitsOfNat 8 b ++ bytesBits bs

theorem length_bitsOfNat (w x : ℕ) : (bitsOfNat w x).length = w := by
  induction w generalizing x with
  | zero => rfl
  | succ k ih => simp [bitsOfNat, ih]

theorem natOfBits_bitsOfNat (w x : ℕ) : natOfBits (bitsOfNat w x) = x % 2 ^ w := by
  induction w generalizing x with
  | zero => simp [bitsOfNat, natOfBits, Nat.mod_one]
  | succ k ih =>
    simp only [bitsOfNat, natOfBits, ih]
    have h2 : (2 : ℕ) ^ (k + 1) = 2 * 2 ^ k := by ring
    rw [h2, Nat.mod_mul]
    rcases Nat.mod_two_eq_zero_or_one x with h | h <;> simp [h]

theorem natOfBits_bitsOfNat_of_lt {w x : ℕ} (h : x < 2 ^ w) :
    natOfBits (bitsOfNat w x) = x := by
  rw [natOfBits_bitsOfNat, Nat.mod_eq_of_lt h]

theorem bitsOfNat_mod (w x : ℕ) : bitsOfNat w (x % 2 ^ w) = bitsOfNat w x := by
  induction w generalizing x with
  | zero => rfl
  | succ k ih =>
    have h2 : (2 : ℕ) ^ (k + 1) = 2 * 2 ^ k := by ring
    simp only [bitsOfNat, h2]
    have hm : x % (2 * 2 ^ k) % 2 = x % 2 := Nat.mod_mul_right_mod x 2 (2 ^ k)
    have hd : x % (2 * 2 ^ k) / 2 = x / 2 % 2 ^ k := by
      have := @Nat.mod_mul 2 (2 ^ k) x
      have h0 : x % 2 < 2 := Nat.mod_lt _ (by omega)
      omega
    rw [hm, hd, ih (x / 2)]

theorem bitsOfNat_split (m n x : ℕ) :
    bitsOfNat (m + n) x = bitsOfNat m x ++ bitsOfNat n (x / 2 ^ m) := by
  induction m generalizing x with
  | zero => simp [bitsOfNat]
  | succ k ih =>
    have hkn : k + 1 + n = (k + n) + 1 := by omega
    have hd : x / 2 / 2 ^ k = x / 2 ^ (k + 1) := by
      rw [Nat.div_div_eq_div_mul]
      congr 1
      ring
    rw [hkn]
    simp only [bitsOfNat, ih (x / 2), List.cons_append, hd]

theorem bitsOfNat_add_mul {m : ℕ} (n x y : ℕ) (hx : x < 2 ^ m) :
    bitsOfNat (m + n) (x + 2 ^ m * y) = bitsOfNat m x ++ bitsOfNat n y := by
  rw [bitsOfNat_split]
  congr 1
  · rw [← bitsOfNat_mod m (x + 2 ^ m * y)]
    rw [Nat.add_mul_mod_self_left, Nat.mod_eq_of_lt hx]
  · congr 1
    rw [Nat.add_mul_div_left _ _ (Nat.pos_pow_of_pos m (by omega))]
    rw [Nat.div_eq_of_lt hx]
    omega

theorem bitsOfNat_inj {w a b : ℕ} (ha : a < 2 ^ w) (hb : b < 2 ^ w)
    (h : bitsOfNat w a = bitsOfNat w b) : a = b := by
  have := natOfBits_bitsOfNat_of_lt ha
  have := natOfBits_bitsOfNat_of_lt hb
  rw [h] at *
  omega

theorem bytesBits_append (a b : List ℕ) :
    bytesBits (a ++ b) = bytesBits a ++ bytesBits b := by
  induction a with
  | nil => rfl
  | cons x xs ih => simp [bytesBits, ih]

theorem length_bytesBits (a : List ℕ) : (bytesBits a).length = 8 * a.length := by
  induction a with
  | nil => rfl
  | cons x xs ih => simp [bytesBits, ih, length_bitsOfNat]; omega

/-- Dividing a bitwise-or by two distributes over both arguments. -/
theorem lor_div_two (a b : ℕ) : (a ||| b) / 2 = a / 2 ||| b / 2 := by
  apply Nat.eq_of_testBit_eq
  intro i
  simp [Nat.testBit_div_two, Nat.testBit_or]

/-- A bitwise-or with a sufficiently shifted operand is an addition. -/
theorem lor_shiftLeft_eq_add {n : ℕ} (a b : ℕ) (ha : a < 2 ^ n) :
    a ||| b <<< n = a + 2 ^ n * b := by
  induction n generalizing a b with
  | zero =>
    have h0 : a = 0 := by omega
    subst h0
    simp [Nat.shiftLeft_eq]
  | succ k ih =>
    have hmod : (a ||| b <<< (k + 1)) % 2 = a % 2 := by
      have h1 : (a ||| b <<< (k + 1)).testBit 0 = (a.testBit 0 || (b <<< (k + 1)).testBit 0) :=
        Nat.testBit_or a (b <<< (k + 1)) 0
      have h2 : (b <<< (k + 1)).testBit 0 = false := by
        simp [Nat.testBit_shiftLeft]
      rw [h2, Bool.or_false] at h1
      simp only [Nat.testBit_zero] at h1
      rcases Nat.mod_two_eq_zero_or_one a with h | h <;>
        rcases Nat.mod_two_eq_zero_or_one (a ||| b <<< (k + 1)) with h' | h' <;>
          simp [h, h'] at h1 ⊢
    have hdiv : (a ||| b <<< (k + 1)) / 2 = a / 2 ||| b <<< k := by
      rw [lor_div_two]
      congr 1
      rw [Nat.shiftLeft_eq, Nat.shiftLeft_eq, pow_succ]
      rw [← Nat.mul_assoc, Nat.mul_div_cancel _ (by omega : (0 : ℕ) < 2)]
    have ha2 : a / 2 < 2 ^ k := by
      rw [pow_succ] at ha
      omega
    have hih := ih (a / 2) b ha2
    have hrec : a ||| b <<< (k + 1) = 2 * ((a ||| b <<< (k + 1)) / 2) + (a ||| b <<< (k + 1)) % 2 := by
      omega
    rw [hrec, hdiv, hmod, hih, pow_succ]
    have := Nat.div_add_mod a 2
    ring_nf
    omega

namespace bit

/-!
Embedding of `bit/bit.go`.  `uint64`/`uint` values are modelled as `ℕ` with
an explicit `% 2 ^ 64` wherever the Go computation can exceed 64 bits.  The
octet sink of a `Writer` is modelled as the byte list `out` (an in-memory
sink that never fails, like `bytes.Buffer`); the octet source of a `Reader`
is the byte list `src` together with a cursor `pos`, and reading past the
end produces the end-of-data error, modelled as `some 0` in `err`
(`temp[0]` stays zero-initialized, so `bits` becomes `0`, as in Go).
-/

/-- State of `bit.Writer`: 64-bit accumulator, bit count, sink, sticky error. -/
structure Writer where
  bits : ℕ
  nbits : ℕ
  out : List ℕ
  err : Option ℕ
deriving DecidableEq, Repr

/-- Constructor `bit.NewWriter` over a fresh in-memory sink. -/
def NewWriter : Writer := ⟨0, 0, [], none⟩

/-- Loop body of `Writer.flush`: `for w.nbits > 8` emit the low byte.  The
fuel argument makes the recursion structural; `flush` passes `nbits` as
fuel, which bounds the iteration count of the Go loop (each pass removes
8 bits). -/
def flushLoop : ℕ → ℕ → ℕ → List ℕ → ℕ × ℕ × List ℕ
  | 0, bits, nbits, buf => (bits, nbits, buf)
  | fuel + 1, bits, nbits, buf =>
    if 8 < nbits then flushLoop fuel (bits / 256) (nbits - 8) (buf ++ [bits % 256])
    else (bits, nbits, buf)

/-- Method `Writer.flush`: on a sticky error only zero `nbits`; otherwise
emit all complete bytes (the single `w.w.Write(buf[0:n])` of the source is
the append of the collected bytes, and the in-memory sink returns no
error). -/
def Writer.flush (w : Writer) : Writer :=
  match w.err with
  | some _ => { w with nbits := 0 }
  | none =>
    let r := flushLoop w.nbits w.bits w.nbits []
    { w with bits := r.1, nbits := r.2.1, out := w.out ++ r.2.2 }

/-- Method `Writer.flushpartial`: flush, then write the final partial byte. -/
def Writer.flushFinal (w : Writer) : Writer :=
  let w1 := w.flush
  match w1.err with
  | some _ => { w1 with nbits := 0 }
  | none =>
    if 0 < w1.nbits then
      { w1 with out := w1.out ++ [w1.bits % 256], bits := 0, nbits := 0 }
    else w1

/-- Method `Writer.WriteBits`: `w.bits |= uint64(x) << w.nbits` (64-bit,
hence the `% 2 ^ 64`, which also covers Go's shift-beyond-width-is-zero
semantics), `w.nbits += width`, flush once more than 16 bits are buffered,
and return `w.err`.  Note that the source does not mask `x` to `width`
bits. -/
def Writer.WriteBits (w : Writer) (x width : ℕ) : Writer × Option ℕ :=
  let w1 : Writer := { w with bits := (w.bits ||| x <<< w.nbits) % 2 ^ 64,
                              nbits := w.nbits + width }
  let w2 := if 16 < w1.nbits then w1.flush else w1
  (w2, w2.err)

/-- Method `Writer.WriteBit`. -/
def Writer.WriteBit (w : Writer) (x : ℕ) : Writer × Option ℕ :=
  w.WriteBits (x &&& 1) 1

/-- Method `Writer.Align`. -/
def Writer.Align (w : Writer) : Writer × Option ℕ :=
  let w1 := w.flushFinal
  (w1, w1.err)

/-- Method `Writer.Close`. -/
def Writer.Close (w : Writer) : Writer × Option ℕ := w.Align

/-- State of `bit.Reader`: byte source with cursor, current byte, count of
already-consumed bits of that byte, sticky error. -/
structure Reader where
  src : List ℕ
  pos : ℕ
  bits : ℕ
  nbits : ℕ
  err : Option ℕ
deriving DecidableEq, Repr

/-- Constructor `bit.NewReader`. -/
def NewReader (src : List ℕ) : Reader := ⟨src, 0, 0, 8, none⟩

/-- Method `Reader.read`: fetch one byte from the source; at end of data
set the end-of-data error (and `bits` becomes the zero-initialized
`temp[0]`). -/
def Reader.read (r : Reader) : Reader :=
  match r.err with
  | some _ => { r with nbits := 8 }
  | none =>
    if r.pos < r.src.length then
      { r with bits := r.src.getD r.pos 0, pos := r.pos + 1 }
    else
      { r with bits := 0, err := some 0 }

/-- Method `Reader.Align`. -/
def Reader.Align (r : Reader) : Reader := { r with nbits := 8 }

/-- Loop of `Reader.ReadBits` (`for int(width)-int(n) > 0`): read a byte,
`r.nbits -= 8` (uint64 wraparound, hence the `+ (2 ^ 64 - 8) ... % 2 ^ 64`),
abort on a read error returning value `0`, else accumulate
`x |= r.bits << n` (64-bit) and advance `n` by 8.  The fuel argument makes
the recursion structural; `ReadBits` passes `width + 1`, which bounds the
iteration count of the Go loop (each pass adds 8 to `n`). -/
def readLoop : ℕ → Reader → ℕ → ℕ → ℕ → Reader × ℕ × Option ℕ
  | 0, r, x, _, _ => (r, x, none)
  | fuel + 1, r, x, n, width =>
    if n < width then
      let r1 := r.read
      let r2 : Reader := { r1 with nbits := (r1.nbits + (2 ^ 64 - 8)) % 2 ^ 64 }
      match r2.err with
      | some e => (r2, 0, some e)
      | none => readLoop fuel r2 ((x ||| r2.bits <<< n) % 2 ^ 64) (n + 8) width
    else (r, x, none)

/-- Method `Reader.ReadBits` (`width` must be less than 32): serve from the
buffered byte when it holds more than `width` unread bits, otherwise run
the byte-fetching loop.  `left`/the loop condition are `int` comparisons;
`n := 8 - r.nbits` is a `uint` subtraction which cannot wrap because
`r.nbits ≤ 8` in every state reachable through the API (see `RInv`
below). -/
def Reader.ReadBits (r : Reader) (width : ℕ) : Reader × ℕ × Option ℕ :=
  match r.err with
  | some e => (r, 0, some e)
  | none =>
    if (8 : ℤ) - (r.nbits : ℤ) > (width : ℤ) then
      ({ r with nbits := r.nbits + width }, (r.bits >>> r.nbits) &&& (2 ^ width - 1), none)
    else
      let res := readLoop (width + 1) r (r.bits >>> r.nbits) (8 - r.nbits) width
      match res.2.2 with
      | some e => (res.1, 0, some e)
      | none =>
        ({ res.1 with nbits := (res.1.nbits + width) % 2 ^ 64 },
         res.2.1 &&& (2 ^ width - 1), none)

/-- Method `Reader.ReadBit`. -/
def Reader.ReadBit (r : Reader) : Reader × ℕ × Option ℕ := r.ReadBits 1

/-- Drive a `Writer` through a sequence of `WriteBits` calls. -/
def writeSeq (w : Writer) : List (ℕ × ℕ) → Writer
  | [] => w
  | p :: ps => writeSeq (w.WriteBits p.1 p.2).1 ps

/-- Drive a `Reader` through a sequence of `ReadBits` calls, collecting the
returned values. -/
def readSeq (r : Reader) : List ℕ → List ℕ × Reader
  | [] => ([], r)
  | width :: ws =>
    let res := r.ReadBits width
    let rest := readSeq res.1 ws
    (res.2.1 :: rest.1, rest.2)

end bit

namespace bit

/-- Bit expansion of zero is all-false padding. -/
theorem bitsOfNat_zero (w : ℕ) : bitsOfNat w 0 = List.replicate w false := by
  induction w with
  | zero => rfl
  | succ k ih => simp [bitsOfNat, ih, List.replicate_succ]

/-- Writer invariant: no error yet, at most 16 buffered bits, the
accumulator holds exactly `nbits` bits, the sink holds bytes, and the
bits pushed so far are the sink's bits followed by the buffered bits. -/
def WInv (w : Writer) (s : List Bool) : Prop :=
  w.err = none ∧ w.nbits ≤ 16 ∧ w.bits < 2 ^ w.nbits ∧
    (∀ b ∈ w.out, b < 256) ∧ bytesBits w.out ++ bitsOfNat w.nbits w.bits = s

theorem winv_newWriter : WInv NewWriter [] :=
  ⟨rfl, by decide, by decide, fun b hb => absurd hb (by simp [NewWriter]), rfl⟩

theorem flushLoop_spec :
    ∀ fuel bits nbits buf, nbits ≤ fuel → bits < 2 ^ nbits →
      (flushLoop fuel bits nbits buf).2.1 ≤ 8 ∧
      (flushLoop fuel bits nbits buf).1 < 2 ^ (flushLoop fuel bits nbits buf).2.1 ∧
      (∀ b ∈ (flushLoop fuel bits nbits buf).2.2, b ∈ buf ∨ b < 256) ∧
      bytesBits (flushLoop fuel bits nbits buf).2.2 ++
          bitsOfNat (flushLoop fuel bits nbits buf).2.1 (flushLoop fuel bits nbits buf).1 =
        bytesBits buf ++ bitsOfNat nbits bits := by
  intro fuel
  induction fuel with
  | zero =>
    intro bits nbits buf hf hb
    have h0 : nbits = 0 := by omega
    subst h0
    exact ⟨Nat.zero_le _, hb, fun b hb => Or.inl hb, rfl⟩
  | succ k ih =>
    intro bits nbits buf hf hb
    by_cases h8 : 8 < nbits
    · have hstep : flushLoop (k + 1) bits nbits buf =
          flushLoop k (bits / 256) (nbits - 8) (buf ++ [bits % 256]) := by
        simp [flushLoop, h8]
      have h256 : (256 : ℕ) = 2 ^ 8 := by norm_num
      have hlt : bits / 256 < 2 ^ (nbits - 8) := by
        rw [h256, Nat.div_lt_iff_lt_mul (by positivity)]
        calc bits < 2 ^ nbits := hb
        _ = 2 ^ (nbits - 8) * 2 ^ 8 := by rw [← pow_add]; congr 1; omega
      have ihh := ih (bits / 256) (nbits - 8) (buf ++ [bits % 256]) (by omega) hlt
      rw [hstep]
      have hsplit : bitsOfNat nbits bits =
          bitsOfNat 8 (bits % 256) ++ bitsOfNat (nbits - 8) (bits / 256) := by
        conv_lhs => rw [show nbits = 8 + (nbits - 8) from by omega]
        rw [bitsOfNat_split, h256, bitsOfNat_mod]
      refine ⟨ihh.1, ihh.2.1, ?_, ?_⟩
      · intro b hbm
        rcases ihh.2.2.1 b hbm with hm | hm
        · rcases List.mem_append.mp hm with hm' | hm'
          · exact Or.inl hm'
          · right
            simp at hm'
            subst hm'
            omega
        · exact Or.inr hm
      · rw [ihh.2.2.2, hsplit, bytesBits_append]
        simp [bytesBits]
    · have hstep : flushLoop (k + 1) bits nbits buf = (bits, nbits, buf) := by
        simp [flushLoop, h8]
      rw [hstep]
      exact ⟨show nbits ≤ 8 by omega, hb, fun b hb => Or.inl hb, rfl⟩

theorem flush_eq {w : Writer} (he : w.err = none) :
    w.flush.bits = (flushLoop w.nbits w.bits w.nbits []).1 ∧
    w.flush.nbits = (flushLoop w.nbits w.bits w.nbits []).2.1 ∧
    w.flush.out = w.out ++ (flushLoop w.nbits w.bits w.nbits []).2.2 ∧
    w.flush.err = none := by
  refine ⟨?_, ?_, ?_, ?_⟩ <;> simp [Writer.flush, he]

theorem flush_winv {w : Writer} {s : List Bool} (he : w.err = none)
    (hb : w.bits < 2 ^ w.nbits) (ho : ∀ b ∈ w.out, b < 256)
    (hs : bytesBits w.out ++ bitsOfNat w.nbits w.bits = s) :
    WInv w.flush s ∧ w.flush.nbits ≤ 8 := by
  obtain ⟨e1, e2, e3, e4⟩ := flush_eq (w := w) he
  have hspec := flushLoop_spec w.nbits w.bits w.nbits [] (le_refl _) hb
  refine ⟨⟨e4, ?_, ?_, ?_, ?_⟩, ?_⟩
  · rw [e2]
    have := hspec.1
    omega
  · rw [e1, e2]
    exact hspec.2.1
  · rw [e3]
    intro b hbm
    rcases List.mem_append.mp hbm with hm | hm
    · exact ho b hm
    · rcases hspec.2.2.1 b hm with hm' | hm'
      · simp at hm'
      · exact hm'
  · rw [e1, e2, e3, bytesBits_append, List.append_assoc, hspec.2.2.2]
    simpa [bytesBits] using hs
  · rw [e2]
    exact hspec.1

theorem WriteBits_eq (w : Writer) (x width : ℕ) :
    (w.WriteBits x width).1 =
      (if 16 < w.nbits + width then
        (Writer.mk ((w.bits ||| x <<< w.nbits) % 2 ^ 64) (w.nbits + width) w.out w.err).flush
      else Writer.mk ((w.bits ||| x <<< w.nbits) % 2 ^ 64) (w.nbits + width) w.out w.err) ∧
    (w.WriteBits x width).2 = (w.WriteBits x width).1.err := by
  by_cases h16 : 16 < w.nbits + width <;>
    refine ⟨?_, ?_⟩ <;> simp [Writer.WriteBits, h16]

theorem WriteBits_winv {w : Writer} {s : List Bool} {x width : ℕ} (h : WInv w s)
    (hx : x < 2 ^ width) (hwd : width ≤ 16) :
    WInv (w.WriteBits x width).1 (s ++ bitsOfNat width x) ∧
      (w.WriteBits x width).2 = none := by
  obtain ⟨he, hn, hb, ho, hs⟩ := h
  have hadd : w.bits ||| x <<< w.nbits = w.bits + 2 ^ w.nbits * x :=
    lor_shiftLeft_eq_add w.bits x hb
  have hbound : w.bits + 2 ^ w.nbits * x < 2 ^ (w.nbits + width) := by
    have h3 : (2 : ℕ) ^ (w.nbits + width) = 2 ^ w.nbits * 2 ^ width := pow_add 2 w.nbits width
    have h2 : 2 ^ w.nbits * (x + 1) ≤ 2 ^ w.nbits * 2 ^ width :=
      Nat.mul_le_mul_left _ (by omega)
    have h6 : w.bits + 2 ^ w.nbits * x < 2 ^ w.nbits * (x + 1) := by
      calc w.bits + 2 ^ w.nbits * x < 2 ^ w.nbits + 2 ^ w.nbits * x := by omega
      _ = 2 ^ w.nbits * (x + 1) := by ring
    omega
  have hsmall : w.bits + 2 ^ w.nbits * x < 2 ^ 64 := by
    have h32 : (2 : ℕ) ^ (w.nbits + width) ≤ 2 ^ 32 := Nat.pow_le_pow_right (by omega) (by omega)
    have h64 : (2 : ℕ) ^ 32 < 2 ^ 64 := by norm_num
    omega
  have hmod : (w.bits ||| x <<< w.nbits) % 2 ^ 64 = w.bits + 2 ^ w.nbits * x := by
    rw [hadd, Nat.mod_eq_of_lt hsmall]
  obtain ⟨ew, ee⟩ := WriteBits_eq w x width
  have hmb : ((Writer.mk ((w.bits ||| x <<< w.nbits) % 2 ^ 64) (w.nbits + width) w.out
      w.err) : Writer).bits < 2 ^ (w.nbits + width) := by
    show (w.bits ||| x <<< w.nbits) % 2 ^ 64 < 2 ^ (w.nbits + width)
    rw [hmod]
    exact hbound
  have hms : bytesBits w.out ++
      bitsOfNat (w.nbits + width) ((w.bits ||| x <<< w.nbits) % 2 ^ 64) =
      s ++ bitsOfNat width x := by
    rw [hmod, bitsOfNat_add_mul width w.bits x hb, ← List.append_assoc, hs]
  by_cases h16 : 16 < w.nbits + width
  · rw [if_pos h16] at ew
    have hfl := flush_winv (w := Writer.mk ((w.bits ||| x <<< w.nbits) % 2 ^ 64)
      (w.nbits + width) w.out w.err) he hmb ho hms
    constructor
    · rw [ew]
      exact hfl.1
    · rw [ee, ew]
      exact hfl.1.1
  · rw [if_neg h16] at ew
    constructor
    · rw [ew]
      exact ⟨he, show w.nbits + width ≤ 16 by omega, hmb, ho, hms⟩
    · rw [ee, ew]
      exact he

/-- Bit stream denoted by a sequence of `(value, width)` write calls. -/
def seqBits : List (ℕ × ℕ) → List Bool
  | [] => []
  | p :: ps => bitsOfNat p.2 p.1 ++ seqBits ps

theorem writeSeq_winv :
    ∀ {ps : List (ℕ × ℕ)} {w : Writer} {s : List Bool}, WInv w s →
      (∀ p ∈ ps, p.1 < 2 ^ p.2 ∧ p.2 ≤ 16) →
      WInv (writeSeq w ps) (s ++ seqBits ps) := by
  intro ps
  induction ps with
  | nil =>
    intro w s h _
    simpa [writeSeq, seqBits] using h
  | cons p ps ih =>
    intro w s h hv
    have hp := hv p (by simp)
    have hstep := WriteBits_winv h hp.1 hp.2
    have hrec := ih hstep.1 (fun q hq => hv q (by simp [hq]))
    simpa [writeSeq, seqBits] using hrec

theorem flushFinal_eq {w : Writer} (he : w.flush.err = none) :
    w.flushFinal = if 0 < w.flush.nbits then
      Writer.mk 0 0 (w.flush.out ++ [w.flush.bits % 256]) w.flush.err
    else w.flush := by
  by_cases hz : 0 < w.flush.nbits <;> simp [Writer.flushFinal, he, hz]

/-- Closing a writer in the invariant yields a byte sink whose bits are
exactly the pushed stream followed by zero padding to a byte boundary. -/
theorem Close_winv {w : Writer} {s : List Bool} (h : WInv w s) :
    w.Close.1.err = none ∧ (∀ b ∈ w.Close.1.out, b < 256) ∧
      ∃ pad, pad < 8 ∧ bytesBits w.Close.1.out = s ++ List.replicate pad false := by
  have hfl := flush_winv h.1 h.2.2.1 h.2.2.2.1 h.2.2.2.2
  obtain ⟨⟨he, hn, hb, ho, hs⟩, hn8⟩ := hfl
  have hc1 : w.Close.1 = w.flushFinal := rfl
  rw [hc1, flushFinal_eq he]
  by_cases hz : 0 < w.flush.nbits
  · rw [if_pos hz]
    refine ⟨he, ?_, 8 - w.flush.nbits, by omega, ?_⟩
    · intro b hbm
      rcases List.mem_append.mp hbm with hm | hm
      · exact ho b hm
      · simp at hm
        subst hm
        omega
    · show bytesBits (w.flush.out ++ [w.flush.bits % 256]) = _
      have hmodb : w.flush.bits % 256 = w.flush.bits := by
        apply Nat.mod_eq_of_lt
        calc w.flush.bits < 2 ^ w.flush.nbits := hb
        _ ≤ 2 ^ 8 := Nat.pow_le_pow_right (by omega) hn8
        _ = 256 := by norm_num
      have hsplit : bitsOfNat 8 (w.flush.bits % 256) =
          bitsOfNat w.flush.nbits w.flush.bits ++
            List.replicate (8 - w.flush.nbits) false := by
        rw [hmodb]
        conv_lhs => rw [show (8 : ℕ) = w.flush.nbits + (8 - w.flush.nbits) from by omega]
        rw [bitsOfNat_split, Nat.div_eq_of_lt hb, bitsOfNat_zero]
      rw [bytesBits_append]
      have hby : bytesBits [w.flush.bits % 256] = bitsOfNat 8 (w.flush.bits % 256) := by
        simp [bytesBits]
      rw [hby, hsplit, ← List.append_assoc, hs]
  · rw [if_neg hz]
    refine ⟨he, ho, 0, by omega, ?_⟩
    have hzz : w.flush.nbits = 0 := by omega
    rw [hzz] at hs
    simpa [bitsOfNat] using hs

end bit

namespace bit

/-- Reader invariant: no error yet, between 1 and 8 consumed bits of the
current byte, source holds bytes, and `rest` is the not-yet-returned part
of the stream: the unread bits of the current byte followed by the bits of
the unread source bytes. -/
def RInv (r : Reader) (rest : List Bool) : Prop :=
  r.err = none ∧ (∀ b ∈ r.src, b < 256) ∧ 0 < r.nbits ∧ r.nbits ≤ 8 ∧ r.bits < 256 ∧
    rest = bitsOfNat (8 - r.nbits) (r.bits >>> r.nbits) ++ bytesBits (r.src.drop r.pos)

theorem rinv_newReader {src : List ℕ} (h : ∀ b ∈ src, b < 256) :
    RInv (NewReader src) (bytesBits src) := by
  refine ⟨rfl, h, show (0 : ℕ) < 8 by norm_num, show (8 : ℕ) ≤ 8 by norm_num,
    show (0 : ℕ) < 256 by norm_num, ?_⟩
  simp [NewReader, bitsOfNat]

theorem readLoop_spec :
    ∀ (fuel : ℕ) (r : Reader) (x n width : ℕ) (tail : List Bool),
      r.err = none → (∀ b ∈ r.src, b < 256) →
      width < 32 → n < width + 8 → width ≤ n + 8 * fuel →
      r.nbits < 2 ^ 64 → x < 2 ^ n →
      bitsOfNat n x ++ bytesBits (r.src.drop r.pos) = tail →
      width ≤ tail.length →
      (readLoop fuel r x n width).2.2 = none ∧
      (readLoop fuel r x n width).1.err = none ∧
      (readLoop fuel r x n width).1.src = r.src ∧
      ∃ m, width ≤ m ∧ m < width + 8 ∧
        (readLoop fuel r x n width).2.1 < 2 ^ m ∧
        bitsOfNat m (readLoop fuel r x n width).2.1 ++
            bytesBits (r.src.drop (readLoop fuel r x n width).1.pos) = tail ∧
        ((readLoop fuel r x n width).1.nbits + m) % 2 ^ 64 = (r.nbits + n) % 2 ^ 64 ∧
        (readLoop fuel r x n width).1.nbits < 2 ^ 64 ∧
        (((readLoop fuel r x n width).1 = r ∧ m = n) ∨
          ((readLoop fuel r x n width).1.bits < 256 ∧ 8 ≤ m ∧ m - 8 < width ∧
            (readLoop fuel r x n width).2.1 / 2 ^ (m - 8) =
              (readLoop fuel r x n width).1.bits)) := by
  intro fuel
  induction fuel with
  | zero =>
    intro r x n width tail he hsrc hw hn8 hfuel hn64 hx htail hlen
    have hexit : width ≤ n := by omega
    refine ⟨rfl, he, rfl, n, hexit, by omega, hx, htail, rfl, hn64, Or.inl ⟨rfl, rfl⟩⟩
  | succ fuel ih =>
    intro r x n width tail he hsrc hw hn8 hfuel hn64 hx htail hlen
    by_cases hl : n < width
    · have hlen2 : tail.length = n + (bytesBits (r.src.drop r.pos)).length := by
        rw [← htail]
        simp [length_bitsOfNat]
      have hpos : r.pos < r.src.length := by
        rw [length_bytesBits] at hlen2
        simp only [List.length_drop] at hlen2
        omega
      have hgd : r.src.getD r.pos 0 = r.src[r.pos] := by
        rw [List.getD_eq_getElem?_getD, List.getElem?_eq_getElem hpos]
        rfl
      have hbyte : r.src.getD r.pos 0 < 256 := by
        rw [hgd]
        exact hsrc _ (List.getElem_mem hpos)
      have hread : r.read = { r with bits := r.src.getD r.pos 0, pos := r.pos + 1 } := by
        simp [Reader.read, he, hpos]
      have hstep : readLoop (fuel + 1) r x n width =
          readLoop fuel
            { r with bits := r.src.getD r.pos 0, pos := r.pos + 1,
                     nbits := (r.nbits + (2 ^ 64 - 8)) % 2 ^ 64 }
            ((x ||| (r.src.getD r.pos 0) <<< n) % 2 ^ 64) (n + 8) width := by
        simp only [readLoop, if_pos hl, hread, he]
      set r2 : Reader := { r with bits := r.src.getD r.pos 0, pos := r.pos + 1,
                                  nbits := (r.nbits + (2 ^ 64 - 8)) % 2 ^ 64 } with hr2
      have hxadd : x ||| (r.src.getD r.pos 0) <<< n = x + 2 ^ n * r.src.getD r.pos 0 :=
        lor_shiftLeft_eq_add x _ hx
      have hxlt : x + 2 ^ n * r.src.getD r.pos 0 < 2 ^ (n + 8) := by
        have h3 : (2 : ℕ) ^ (n + 8) = 2 ^ n * 2 ^ 8 := pow_add 2 n 8
        have h2 : 2 ^ n * (r.src.getD r.pos 0 + 1) ≤ 2 ^ n * 2 ^ 8 :=
          Nat.mul_le_mul_left _
            (by rw [show (2 : ℕ) ^ 8 = 256 from by norm_num]; omega)
        have h6 : x + 2 ^ n * r.src.getD r.pos 0 < 2 ^ n * (r.src.getD r.pos 0 + 1) := by
          calc x + 2 ^ n * r.src.getD r.pos 0 < 2 ^ n + 2 ^ n * r.src.getD r.pos 0 := by omega
          _ = 2 ^ n * (r.src.getD r.pos 0 + 1) := by ring
        omega
      have hxsmall : x + 2 ^ n * r.src.getD r.pos 0 < 2 ^ 64 := by
        have h1 : (2 : ℕ) ^ (n + 8) ≤ 2 ^ 47 := Nat.pow_le_pow_right (by omega) (by omega)
        have h2 : (2 : ℕ) ^ 47 < 2 ^ 64 := by norm_num
        omega
      have hxmod : (x ||| (r.src.getD r.pos 0) <<< n) % 2 ^ 64 =
          x + 2 ^ n * r.src.getD r.pos 0 := by
        rw [hxadd, Nat.mod_eq_of_lt hxsmall]
      have htail2 : bitsOfNat (n + 8) (x + 2 ^ n * r.src.getD r.pos 0) ++
          bytesBits (r2.src.drop r2.pos) = tail := by
        rw [bitsOfNat_add_mul 8 x _ hx, ← htail]
        have hdrop : r.src.drop r.pos = r.src[r.pos] :: r.src.drop (r.pos + 1) :=
          List.drop_eq_getElem_cons hpos
        have : r2.src.drop r2.pos = r.src.drop (r.pos + 1) := rfl
        rw [this, hdrop, ← hgd]
        show (bitsOfNat n x ++ bitsOfNat 8 (r.src.getD r.pos 0)) ++ _ =
          bitsOfNat n x ++ (bitsOfNat 8 (r.src.getD r.pos 0) ++ _)
        rw [List.append_assoc]
      have hr2n : r2.nbits < 2 ^ 64 := by
        show (r.nbits + (2 ^ 64 - 8)) % 2 ^ 64 < 2 ^ 64
        exact Nat.mod_lt _ (by positivity)
      have hihh := ih r2 ((x ||| (r.src.getD r.pos 0) <<< n) % 2 ^ 64) (n + 8) width tail
        he hsrc hw (by omega) (by omega) hr2n (by rw [hxmod]; exact hxlt)
        (by rw [hxmod]; exact htail2) hlen
      rw [hstep]
      obtain ⟨c1, c2, c3, m, d1, d2, d3, d4, d5, d6, d7⟩ := hihh
      refine ⟨c1, c2, c3, m, d1, d2, d3, d4, ?_, d6, ?_⟩
      · have hr2nb : r2.nbits = (r.nbits + (2 ^ 64 - 8)) % 2 ^ 64 := rfl
        rw [hr2nb] at d5
        omega
      · rcases d7 with ⟨hres, hm⟩ | hr
        · right
          set res := readLoop fuel r2 ((x ||| (r.src.getD r.pos 0) <<< n) % 2 ^ 64)
            (n + 8) width with hresdef
          have hbits : res.1.bits = r.src.getD r.pos 0 := by rw [hres]
          have hval : res.2.1 = x + 2 ^ n * r.src.getD r.pos 0 := by
            have e1 : bitsOfNat m res.2.1 ++ bytesBits (r2.src.drop res.1.pos) = tail := d4
            have e2 : bitsOfNat (n + 8) (x + 2 ^ n * r.src.getD r.pos 0) ++
                bytesBits (r2.src.drop r2.pos) = tail := htail2
            rw [hres] at e1
            rw [hm] at e1
            have := List.append_inj (e1.trans e2.symm)
              (by rw [length_bitsOfNat, length_bitsOfNat])
            exact bitsOfNat_inj (hm ▸ d3) hxlt this.1
          refine ⟨by rw [hbits]; exact hbyte, by omega, by omega, ?_⟩
          rw [hval, hbits, hm]
          have : n + 8 - 8 = n := by omega
          rw [this, Nat.add_mul_div_left _ _ (by positivity : (0 : ℕ) < 2 ^ n),
            Nat.div_eq_of_lt hx, Nat.zero_add]
        · exact Or.inr hr
    · have hstep : readLoop (fuel + 1) r x n width = (r, x, none) := by
        simp [readLoop, hl]
      rw [hstep]
      exact ⟨rfl, he, rfl, n, by omega, by omega, hx, htail, rfl, hn64, Or.inl ⟨rfl, rfl⟩⟩

end bit

namespace bit

theorem shiftRight_lt_two_pow {b n : ℕ} (hb : b < 256) (hn : n ≤ 8) :
    b >>> n < 2 ^ (8 - n) := by
  rw [Nat.shiftRight_eq_div_pow, Nat.div_lt_iff_lt_mul (by positivity)]
  calc b < 256 := hb
  _ = 2 ^ 8 := by norm_num
  _ = 2 ^ (8 - n) * 2 ^ n := by rw [← pow_add]; congr 1; omega

theorem ReadBits_rinv {r : Reader} {width x : ℕ} {rest : List Bool}
    (h : RInv r (bitsOfNat width x ++ rest)) (hx : x < 2 ^ width) (hw : width < 32) :
    (r.ReadBits width).2.2 = none ∧ (r.ReadBits width).2.1 = x ∧
      RInv (r.ReadBits width).1 rest := by
  obtain ⟨he, hsrc, hn0, hn8, hb, hrest⟩ := h
  by_cases hbr : (8 : ℤ) - (r.nbits : ℤ) > (width : ℤ)
  · have hww : width < 8 - r.nbits := by omega
    have hsplit : bitsOfNat (8 - r.nbits) (r.bits >>> r.nbits) =
        bitsOfNat width (r.bits >>> r.nbits) ++
          bitsOfNat (8 - r.nbits - width) (r.bits >>> r.nbits / 2 ^ width) := by
      conv_lhs => rw [show 8 - r.nbits = width + (8 - r.nbits - width) from by omega]
      rw [bitsOfNat_split]
    rw [hsplit, List.append_assoc] at hrest
    have hinj := List.append_inj hrest (by rw [length_bitsOfNat, length_bitsOfNat])
    have hzx : r.bits >>> r.nbits % 2 ^ width = x := by
      have h1 := natOfBits_bitsOfNat width (r.bits >>> r.nbits)
      rw [← hinj.1, natOfBits_bitsOfNat_of_lt hx] at h1
      omega
    have hrb1 : (r.ReadBits width).1 = { r with nbits := r.nbits + width } := by
      simp [Reader.ReadBits, he, hbr]
    have hrb2 : (r.ReadBits width).2.1 = (r.bits >>> r.nbits) &&& (2 ^ width - 1) := by
      simp [Reader.ReadBits, he, hbr]
    have hrb3 : (r.ReadBits width).2.2 = none := by
      simp [Reader.ReadBits, he, hbr]
    refine ⟨hrb3, ?_, ?_⟩
    · rw [hrb2, Nat.and_pow_two_sub_one_eq_mod, hzx]
    · rw [hrb1]
      refine ⟨he, hsrc, show 0 < r.nbits + width by omega,
        show r.nbits + width ≤ 8 by omega, hb, ?_⟩
      show rest = bitsOfNat (8 - (r.nbits + width)) (r.bits >>> (r.nbits + width)) ++
        bytesBits (r.src.drop r.pos)
      have hshift : r.bits >>> r.nbits / 2 ^ width = r.bits >>> (r.nbits + width) := by
        rw [Nat.shiftRight_eq_div_pow, Nat.shiftRight_eq_div_pow,
          Nat.div_div_eq_div_mul, pow_add]
      have h88 : 8 - r.nbits - width = 8 - (r.nbits + width) := by omega
      rw [← hshift, ← h88]
      exact hinj.2
  · have hn0' : 8 - r.nbits ≤ width := by omega
    have hx0 : r.bits >>> r.nbits < 2 ^ (8 - r.nbits) := shiftRight_lt_two_pow hb hn8
    have hloop := readLoop_spec (width + 1) r (r.bits >>> r.nbits) (8 - r.nbits) width
      (bitsOfNat width x ++ rest) he hsrc hw (by omega) (by omega) (by omega) hx0
      hrest.symm (by rw [List.length_append, length_bitsOfNat]; omega)
    set res := readLoop (width + 1) r (r.bits >>> r.nbits) (8 - r.nbits) width with hresd
    obtain ⟨c1, c2, c3, m, d1, d2, d3, d4, d5, d6, d7⟩ := hloop
    have hrbP : (r.ReadBits width).1.pos = res.1.pos := by
      simp only [Reader.ReadBits, he, ← hresd]
      rw [if_neg hbr]
      simp only [c1]
    have hrbB : (r.ReadBits width).1.bits = res.1.bits := by
      simp only [Reader.ReadBits, he, ← hresd]
      rw [if_neg hbr]
      simp only [c1]
    have hrbS : (r.ReadBits width).1.src = res.1.src := by
      simp only [Reader.ReadBits, he, ← hresd]
      rw [if_neg hbr]
      simp only [c1]
    have hrbE : (r.ReadBits width).1.err = res.1.err := by
      simp only [Reader.ReadBits, he, ← hresd]
      rw [if_neg hbr]
      simp only [c1]
    have hrbN : (r.ReadBits width).1.nbits = (res.1.nbits + width) % 2 ^ 64 := by
      simp only [Reader.ReadBits, he, ← hresd]
      rw [if_neg hbr]
      simp only [c1]
    have hrb2 : (r.ReadBits width).2.1 = res.2.1 &&& (2 ^ width - 1) := by
      simp only [Reader.ReadBits, he, ← hresd]
      rw [if_neg hbr]
      simp only [c1]
    have hrb3 : (r.ReadBits width).2.2 = none := by
      simp only [Reader.ReadBits, he, ← hresd]
      rw [if_neg hbr]
      simp only [c1]
    have hmsplit : bitsOfNat m res.2.1 =
        bitsOfNat width res.2.1 ++ bitsOfNat (m - width) (res.2.1 / 2 ^ width) := by
      conv_lhs => rw [show m = width + (m - width) from by omega]
      rw [bitsOfNat_split]
    rw [hmsplit, List.append_assoc] at d4
    have hinj := List.append_inj d4.symm (by rw [length_bitsOfNat, length_bitsOfNat])
    have hvx : res.2.1 % 2 ^ width = x := by
      have h1 := natOfBits_bitsOfNat width res.2.1
      rw [← hinj.1, natOfBits_bitsOfNat_of_lt hx] at h1
      omega
    have hnb8 : r.nbits + (8 - r.nbits) = 8 := by omega
    rw [hnb8] at d5
    have hnbf : (res.1.nbits + width) % 2 ^ 64 = 8 - (m - width) := by omega
    refine ⟨hrb3, by rw [hrb2, Nat.and_pow_two_sub_one_eq_mod, hvx], ?_⟩
    refine ⟨by rw [hrbE]; exact c2, by rw [hrbS, c3]; exact hsrc, ?_, ?_, ?_, ?_⟩
    · rw [hrbN, hnbf]
      omega
    · rw [hrbN, hnbf]
      omega
    · rw [hrbB]
      rcases d7 with ⟨hid, _⟩ | hr
      · rw [hid]
        exact hb
      · exact hr.1
    · rw [hrbN, hrbB, hrbS, hrbP, c3, hnbf]
      have h8m : 8 - (8 - (m - width)) = m - width := by omega
      rw [h8m]
      rcases d7 with ⟨hid, hmn⟩ | ⟨hblt, h8le, hm8, hdivb⟩
      · have hmw0 : m - width = 0 := by omega
        have e1 : rest = [] ++ bytesBits (r.src.drop res.1.pos) := by
          have e2 := hinj.2
          rw [hmw0] at e2
          exact e2
        rw [hmw0]
        exact e1
      · have hdiv : res.2.1 / 2 ^ width = res.1.bits >>> (8 - (m - width)) := by
          have hexp : m - 8 + (width - (m - 8)) = width := by omega
          have hsplit2 : res.2.1 / 2 ^ width =
              res.2.1 / 2 ^ (m - 8) / 2 ^ (width - (m - 8)) := by
            rw [Nat.div_div_eq_div_mul, ← pow_add, hexp]
          have hexp2 : width - (m - 8) = 8 - (m - width) := by omega
          rw [hsplit2, hdivb, Nat.shiftRight_eq_div_pow, hexp2]
        rw [← hdiv]
        exact hinj.2

end bit

namespace bit

theorem readSeq_rinv :
    ∀ {ps : List (ℕ × ℕ)} {r : Reader} {rest : List Bool},
      RInv r (seqBits ps ++ rest) →
      (∀ p ∈ ps, p.1 < 2 ^ p.2 ∧ p.2 ≤ 16) →
      (readSeq r (ps.map Prod.snd)).1 = ps.map Prod.fst ∧
        RInv (readSeq r (ps.map Prod.snd)).2 rest := by
  intro ps
  induction ps with
  | nil =>
    intro r rest h _
    exact ⟨rfl, by simpa [seqBits] using h⟩
  | cons p ps ih =>
    intro r rest h hv
    have hp := hv p (by simp)
    have hstream : seqBits (p :: ps) ++ rest = bitsOfNat p.2 p.1 ++ (seqBits ps ++ rest) := by
      simp [seqBits, List.append_assoc]
    rw [hstream] at h
    have hstep := ReadBits_rinv h hp.1 (by omega)
    have hrec := ih hstep.2.2 (fun q hq => hv q (by simp [hq]))
    constructor
    · simp only [List.map_cons, readSeq]
      rw [hstep.2.1, hrec.1]
    · simp only [List.map_cons, readSeq]
      exact hrec.2

theorem flush_sticky {w : Writer} {e : ℕ} (h : w.err = some e) :
    w.flush.err = some e ∧ w.flush.out = w.out ∧ w.flush.bits = w.bits := by
  refine ⟨?_, ?_, ?_⟩ <;> simp [Writer.flush, h]

theorem WriteBits_sticky {w : Writer} {e : ℕ} (x width : ℕ) (h : w.err = some e) :
    (w.WriteBits x width).2 = some e ∧ (w.WriteBits x width).1.out = w.out := by
  obtain ⟨ew, ee⟩ := WriteBits_eq w x width
  by_cases h16 : 16 < w.nbits + width
  · rw [if_pos h16] at ew
    have hm : (Writer.mk ((w.bits ||| x <<< w.nbits) % 2 ^ 64) (w.nbits + width)
        w.out w.err).err = some e := h
    have := flush_sticky hm
    constructor
    · rw [ee, ew]
      exact this.1
    · rw [ew]
      exact this.2.1
  · rw [if_neg h16] at ew
    constructor
    · rw [ee, ew]
      exact h
    · rw [ew]

theorem Align_sticky {w : Writer} {e : ℕ} (h : w.err = some e) :
    w.Align.2 = some e ∧ w.Align.1.out = w.out := by
  have hfl := flush_sticky h
  have ha1 : w.Align.1 = w.flushFinal := rfl
  have ha2 : w.Align.2 = w.flushFinal.err := rfl
  have hff : w.flushFinal = { w.flush with nbits := 0 } := by
    simp [Writer.flushFinal, hfl.1]
  rw [ha1, ha2, hff]
  exact ⟨hfl.1, hfl.2.1⟩

theorem ReadBits_sticky {r : Reader} {e : ℕ} (width : ℕ) (h : r.err = some e) :
    r.ReadBits width = (r, 0, some e) := by
  simp [Reader.ReadBits, h]

theorem ReadBits_err_zero (r : Reader) (wd : ℕ) {e : ℕ}
    (h : (r.ReadBits wd).2.2 = some e) : (r.ReadBits wd).2.1 = 0 := by
  cases herr : r.err with
  | some e0 =>
    rw [ReadBits_sticky wd herr]
  | none =>
    by_cases hbr : (8 : ℤ) - (r.nbits : ℤ) > (wd : ℤ)
    · have : (r.ReadBits wd).2.2 = none := by
        simp [Reader.ReadBits, herr, hbr]
      rw [this] at h
      exact absurd h (by simp)
    · cases hres : (readLoop (wd + 1) r (r.bits >>> r.nbits) (8 - r.nbits) wd).2.2 with
      | some e2 =>
        have : (r.ReadBits wd).2.1 = 0 := by
          simp only [Reader.ReadBits, herr]
          rw [if_neg hbr]
          simp only [hres]
        exact this
      | none =>
        have : (r.ReadBits wd).2.2 = none := by
          simp only [Reader.ReadBits, herr]
          rw [if_neg hbr]
          simp only [hres]
        rw [this] at h
        exact absurd h (by simp)

end bit

/-- C4, counterexample: the claim's "each `WriteBits(value, width)` call
contributes only the low `width` bits of `value`" fails on the source:
`WriteBits` ors the whole of `x` into the accumulator without masking, so
writing `(2, 1)` then `(0, 1)` and reading widths `1, 1` back yields
`[0, 1]`, not the claimed original values `[2, 0]` (the second value is
polluted by the high bit of the first). -/
theorem claim_C4_counterexample :
    (bit.readSeq (bit.NewReader ((bit.writeSeq bit.NewWriter [(2, 1), (0, 1)]).Close.1.out))
        [1, 1]).1 ≠ [2, 0] := by decide

/-- C4 (amended): for every sequence of `(value, width)` write calls with
each `width ≤ 16` and each `value < 2 ^ width` (i.e. the value actually
fits in `width` bits — the source writer does not mask), writing them,
closing the stream, and reading back the same widths from the produced
bytes yields exactly the original values. -/
theorem claim_C4_roundtrip (ps : List (ℕ × ℕ))
    (hv : ∀ p ∈ ps, p.1 < 2 ^ p.2 ∧ p.2 ≤ 16) :
    (bit.readSeq (bit.NewReader ((bit.writeSeq bit.NewWriter ps).Close.1.out))
        (ps.map Prod.snd)).1 = ps.map Prod.fst := by
  have hw := bit.writeSeq_winv bit.winv_newWriter hv
  rw [List.nil_append] at hw
  have hc := bit.Close_winv hw
  obtain ⟨hce, hco, pad, hpad, hbytes⟩ := hc
  have hr := bit.rinv_newReader hco
  rw [hbytes] at hr
  exact (bit.readSeq_rinv hr hv).1

theorem claim_C4_witness :
    (∀ p ∈ [((1 : ℕ), (1 : ℕ)), (3, 2)], p.1 < 2 ^ p.2 ∧ p.2 ≤ 16) ∧
      (bit.readSeq (bit.NewReader ((bit.writeSeq bit.NewWriter
          [((1 : ℕ), (1 : ℕ)), (3, 2)]).Close.1.out))
        ([((1 : ℕ), (1 : ℕ)), (3, 2)].map Prod.snd)).1 =
        [((1 : ℕ), (1 : ℕ)), (3, 2)].map Prod.fst :=
  ⟨by decide, claim_C4_roundtrip _ (by decide)⟩

/-- C8: BitStream errors are sticky.  Once a `Writer` or `Reader` holds an
error, `WriteBits`/`Align` and `ReadBits` perform no further I/O (the sink
and the source position are untouched) and return that same first error;
and a `ReadBits` call that returns an error returns value `0`, never a
partial result. -/
theorem claim_C8_sticky (w : bit.Writer) (r : bit.Reader) (x width width' : ℕ)
    (e e' : ℕ) (hw : w.err = some e) (hr : r.err = some e') :
    (w.WriteBits x width).2 = some e ∧ (w.WriteBits x width).1.out = w.out ∧
      w.Align.2 = some e ∧ w.Align.1.out = w.out ∧
      r.ReadBits width' = (r, 0, some e') ∧
      (∀ (r2 : bit.Reader) (wd e2 : ℕ), (r2.ReadBits wd).2.2 = some e2 →
        (r2.ReadBits wd).2.1 = 0) :=
  ⟨(bit.WriteBits_sticky x width hw).1, (bit.WriteBits_sticky x width hw).2,
   (bit.Align_sticky hw).1, (bit.Align_sticky hw).2,
   bit.ReadBits_sticky width' hr,
   fun r2 wd e2 h => bit.ReadBits_err_zero r2 wd h⟩

theorem claim_C8_witness :
    (bit.Writer.mk 5 3 [7] (some 0)).err = some 0 ∧
      (bit.Reader.mk [9] 1 9 4 (some 0)).err = some 0 ∧
      (((bit.Writer.mk 5 3 [7] (some 0)).WriteBits 6 4).2 = some 0 ∧
        ((bit.Writer.mk 5 3 [7] (some 0)).WriteBits 6 4).1.out = [7] ∧
        (bit.Writer.mk 5 3 [7] (some 0)).Align.2 = some 0 ∧
        (bit.Writer.mk 5 3 [7] (some 0)).Align.1.out = [7] ∧
        (bit.Reader.mk [9] 1 9 4 (some 0)).ReadBits 6 =
          (bit.Reader.mk [9] 1 9 4 (some 0), 0, some 0) ∧
        (∀ (r2 : bit.Reader) (wd e2 : ℕ), (r2.ReadBits wd).2.2 = some e2 →
          (r2.ReadBits wd).2.1 = 0)) :=
  ⟨rfl, rfl, claim_C8_sticky (bit.Writer.mk 5 3 [7] (some 0))
    (bit.Reader.mk [9] 1 9 4 (some 0)) 6 4 6 0 0 rfl rfl⟩

/-- Object state `Delta` from `main.go`: eight `int32` fields, modelled as
`ℤ` (operations that depend on 32-bit wrapping apply it explicitly). -/
structure Delta where
  Largest : ℤ
  A : ℤ
  B : ℤ
  C : ℤ
  X : ℤ
  Y : ℤ
  Z : ℤ
  Interacting : ℤ
deriving DecidableEq, Repr, Inhabited

/-- The physics package's `Cube` is declared outside the given sources; its
uses in `encoding.go` (`deltabits`, `Value6`, ...) show it has exactly the
same eight `int32` fields as `main.go`'s `Delta`. -/
abbrev Cube := Delta

/-- Getter `getLargest` from `main.go`. -/
def getLargest (a : Delta) : ℤ := a.Largest

/-- Getter `getInteracting` from `main.go`. -/
def getInteracting (a : Delta) : ℤ := a.Interacting

namespace physics

/-- Two's-complement reading of the low 32 bits of `n`. -/
def wrap32 (n : ℕ) : ℤ :=
  if n % 2 ^ 32 < 2 ^ 31 then (n % 2 ^ 32 : ℕ) else (n % 2 ^ 32 : ℕ) - 2 ^ 32

/-- Go `int32` bitwise xor, through the two's-complement bit patterns. -/
def xor32 (a b : ℤ) : ℤ := wrap32 ((a % 2 ^ 32).toNat ^^^ (b % 2 ^ 32).toNat)

/-- Go `int32` wrapping subtraction. -/
def sub32 (a b : ℤ) : ℤ := wrap32 ((a - b) % 2 ^ 32).toNat

/-- Go `int32` wrapping addition. -/
def add32 (a b : ℤ) : ℤ := wrap32 ((a + b) % 2 ^ 32).toNat

/-- Go `uint(v)` of an `int32` value: sign extension to 64 bits,
reinterpreted as an unsigned integer. -/
def u64ofI32 (z : ℤ) : ℕ := (z % 2 ^ 64).toNat

/-- Changed-object index list `items` built by `State.Encode`'s presence
loop: the indices `i` with `current[i] != baseline[i]`, in natural order. -/
def items (baseline current : List Cube) : List ℕ :=
  (List.range current.length).filter
    (fun i => decide (¬ current.getD i default = baseline.getD i default))

/-- Values coded by `State.Encode`'s presence loop: the adaptive binary
arithmetic coder (external consumed contract) is modelled as the sequence
of values passed to `mzeros.Encode`; the loop codes `0` for an unchanged
object and `1` for a changed one, in natural index order. -/
def presencePass (baseline current : List Cube) : List ℕ :=
  (List.range current.length).map
    (fun i => if current.getD i default = baseline.getD i default then 0 else 1)

/-- Values coded by `State.Encode`'s interacting loop: for each changed
index, `uint(cube.Interacting ^ 1)`. -/
def interactingPass (current : List Cube) (its : List ℕ) : List ℕ :=
  its.map (fun i => u64ofI32 (xor32 (current.getD i default).Interacting 1))

/-- Values coded by `State.Encode`'s largest loop: for each changed index,
`v := uint(cube.Largest ^ base.Largest)`, coded as `v &&& 1` then `v >>> 1`. -/
def largestPass (baseline current : List Cube) (its : List ℕ) : List ℕ :=
  its.foldr (fun i acc =>
    (u64ofI32 (xor32 (current.getD i default).Largest (baseline.getD i default).Largest) &&& 1) ::
      (u64ofI32 (xor32 (current.getD i default).Largest
        (baseline.getD i default).Largest) >>> 1) :: acc) []

/-- Values coded by `State.Encode` (`encoding.go`): presence loop, then
interacting loop, then largest loop.  The indexed-field section of the
live code (lines 95-109) only accumulates the `totalext`/`totalcur`
statistics counters and codes nothing (the entropy-coded field pass is
commented out), and `State.Decode` correspondingly stops after the largest
loop, so the coded output does not depend on `historic`. -/
def StateEncode (baseline current : List Cube) : List ℕ :=
  presencePass baseline current ++ interactingPass current (items baseline current) ++
    largestPass baseline current (items baseline current)

/-- Flattened field accessor `Value6` from `encoding.go`: field `i / N` of
object `i % N`.  The panicking `default` branch of the Go switch, and the
division-by-zero panic when `N = 0`, are modelled as `none`. -/
def Value6 (base : List Cube) (i : ℕ) : Option ℤ :=
  if base.length = 0 then none else
  match i / base.length with
  | 0 => some (base.getD (i % base.length) default).A
  | 1 => some (base.getD (i % base.length) default).B
  | 2 => some (base.getD (i % base.length) default).C
  | 3 => some (base.getD (i % base.length) default).X
  | 4 => some (base.getD (i % base.length) default).Y
  | 5 => some (base.getD (i % base.length) default).Z
  | _ => none

/-- Flattened expected-delta accessor `Delta6` from `encoding.go`.  Note
case `0`: the source computes `hist[k].B - base[k].A`, mixing field `B` of
`historic` into field `A`'s key (cases 1-5 all use the matching field). -/
def Delta6 (hist base : List Cube) (i : ℕ) : Option ℤ :=
  if base.length = 0 then none else
  match i / base.length with
  | 0 => some (sub32 (hist.getD (i % base.length) default).B
      (base.getD (i % base.length) default).A)
  | 1 => some (sub32 (hist.getD (i % base.length) default).B
      (base.getD (i % base.length) default).B)
  | 2 => some (sub32 (hist.getD (i % base.length) default).C
      (base.getD (i % base.length) default).C)
  | 3 => some (sub32 (hist.getD (i % base.length) default).X
      (base.getD (i % base.length) default).X)
  | 4 => some (sub32 (hist.getD (i % base.length) default).Y
      (base.getD (i % base.length) default).Y)
  | 5 => some (sub32 (hist.getD (i % base.length) default).Z
      (base.getD (i % base.length) default).Z)
  | _ => none

/-- Flattened accessor `Extra6` from `encoding.go`.  Case `0` has the same
field mixing as `Delta6`: `cur[k].A - base[k].A + (hist[k].B - base[k].A)`. -/
def Extra6 (hist base cur : List Cube) (i : ℕ) : Option ℤ :=
  if base.length = 0 then none else
  match i / base.length with
  | 0 => some (add32 (sub32 (cur.getD (i % base.length) default).A
      (base.getD (i % base.length) default).A)
      (sub32 (hist.getD (i % base.length) default).B (base.getD (i % base.length) default).A))
  | 1 => some (add32 (sub32 (cur.getD (i % base.length) default).B
      (base.getD (i % base.length) default).B)
      (sub32 (hist.getD (i % base.length) default).B (base.getD (i % base.length) default).B))
  | 2 => some (add32 (sub32 (cur.getD (i % base.length) default).C
      (base.getD (i % base.length) default).C)
      (sub32 (hist.getD (i % base.length) default).C (base.getD (i % base.length) default).C))
  | 3 => some (add32 (sub32 (cur.getD (i % base.length) default).X
      (base.getD (i % base.length) default).X)
      (sub32 (hist.getD (i % base.length) default).X (base.getD (i % base.length) default).X))
  | 4 => some (add32 (sub32 (cur.getD (i % base.length) default).Y
      (base.getD (i % base.length) default).Y)
      (sub32 (hist.getD (i % base.length) default).Y (base.getD (i % base.length) default).Y))
  | 5 => some (add32 (sub32 (cur.getD (i % base.length) default).Z
      (base.getD (i % base.length) default).Z)
      (sub32 (hist.getD (i % base.length) default).Z (base.getD (i % base.length) default).Z))
  | _ => none

/-- Modelled from the spec: the per-field expected delta the spec describes
for the (object, field) tables — "an expected delta derived from `historic`
vs `baseline` per field" — i.e. for every flattened index the difference
between `historic[k]`'s field `f` and `baseline[k]`'s field `f`, never
another field of the cube. -/
def specDelta6 (hist base : List Cube) (i : ℕ) : Option ℤ :=
  if base.length = 0 then none else
  match i / base.length with
  | 0 => some (sub32 (hist.getD (i % base.length) default).A
      (base.getD (i % base.length) default).A)
  | 1 => some (sub32 (hist.getD (i % base.length) default).B
      (base.getD (i % base.length) default).B)
  | 2 => some (sub32 (hist.getD (i % base.length) default).C
      (base.getD (i % base.length) default).C)
  | 3 => some (sub32 (hist.getD (i % base.length) default).X
      (base.getD (i % base.length) default).X)
  | 4 => some (sub32 (hist.getD (i % base.length) default).Y
      (base.getD (i % base.length) default).Y)
  | 5 => some (sub32 (hist.getD (i % base.length) default).Z
      (base.getD (i % base.length) default).Z)
  | _ => none

end physics

/-- C2, counterexample: with baseline all-zero and current differing only
in `X` at object 0 (so object 0 is changed and position 1 of the coded
stream is its interacting-pass value), the coded value is
`Interacting ^ 1 = 1`, not the claimed
`current.Interacting XOR baseline.Interacting = 0`. -/
theorem claim_C2_counterexample :
    physics.items [Delta.mk 0 0 0 0 0 0 0 0] [Delta.mk 0 0 0 0 1 0 0 0] = [0] ∧
    (physics.StateEncode [Delta.mk 0 0 0 0 0 0 0 0] [Delta.mk 0 0 0 0 1 0 0 0]).getD 1 0 ≠
      physics.u64ofI32 (physics.xor32 (Delta.mk 0 0 0 0 1 0 0 0).Interacting
        (Delta.mk 0 0 0 0 0 0 0 0).Interacting) := by
  constructor
  · decide
  · decide

/-- C2 (amended): in the interacting pass of `State.Encode`, the changed
objects are taken in natural index order (the `items` list, filtered only
by the presence comparison, is strictly increasing and is not reordered by
any permutation) and for the `j`-th of them the encoder entropy-codes
exactly one value, equal to `current.Interacting XOR 1` — not XOR the
baseline flag (the decoder mirrors this, setting
`Interacting = decodedBit ^ 1`). -/
theorem claim_C2_interacting (baseline current : List Cube) (j : ℕ)
    (hj : j < (physics.items baseline current).length) :
    List.Pairwise (· < ·) (physics.items baseline current) ∧
    (physics.StateEncode baseline current).getD (current.length + j) 0 =
      physics.u64ofI32 (physics.xor32
        ((current.getD ((physics.items baseline current).getD j 0) default).Interacting) 1) := by
  constructor
  · exact List.Pairwise.sublist (List.filter_sublist _) (List.pairwise_lt_range _)
  · have hplen : (physics.presencePass baseline current).length = current.length := by
      simp [physics.presencePass]
    have hstep1 : (physics.StateEncode baseline current).getD (current.length + j) 0 =
        (physics.interactingPass current (physics.items baseline current) ++
          physics.largestPass baseline current (physics.items baseline current)).getD j 0 := by
      simp only [physics.StateEncode, List.append_assoc, List.getD_eq_getElem?_getD]
      rw [List.getElem?_append_right (by omega)]
      congr 2
      omega
    have hilen : (physics.interactingPass current (physics.items baseline current)).length =
        (physics.items baseline current).length := by
      simp [physics.interactingPass]
    have hstep2 : (physics.interactingPass current (physics.items baseline current) ++
        physics.largestPass baseline current (physics.items baseline current)).getD j 0 =
        (physics.interactingPass current (physics.items baseline current)).getD j 0 := by
      simp only [List.getD_eq_getElem?_getD]
      rw [List.getElem?_append_left (by omega)]
    rw [hstep1, hstep2]
    simp only [physics.interactingPass, List.getD_eq_getElem?_getD, List.getElem?_map]
    rw [List.getElem?_eq_getElem hj]
    simp

theorem claim_C2_witness :
    0 < (physics.items [Delta.mk 0 0 0 0 0 0 0 0] [Delta.mk 0 0 0 0 2 0 0 0]).length ∧
      (List.Pairwise (· < ·)
          (physics.items [Delta.mk 0 0 0 0 0 0 0 0] [Delta.mk 0 0 0 0 2 0 0 0]) ∧
        (physics.StateEncode [Delta.mk 0 0 0 0 0 0 0 0] [Delta.mk 0 0 0 0 2 0 0 0]).getD
            (([Delta.mk 0 0 0 0 2 0 0 0] : List Cube).length + 0) 0 =
          physics.u64ofI32 (physics.xor32
            (([Delta.mk 0 0 0 0 2 0 0 0] : List Cube).getD
              ((physics.items [Delta.mk 0 0 0 0 0 0 0 0]
                [Delta.mk 0 0 0 0 2 0 0 0]).getD 0 0) default).Interacting 1)) :=
  ⟨by decide, claim_C2_interacting [Delta.mk 0 0 0 0 0 0 0 0] [Delta.mk 0 0 0 0 2 0 0 0] 0
    (by decide)⟩

/-- C3: the sort key (`Delta6`, the "expected delta" the Go code sorts the
flattened tables by) is not computed from field `f` alone.  At object 0,
field `A` (flattened index 0), with `historic[0].A = 1`, `historic[0].B = 2`
and an all-zero baseline, the source computes
`hist[0].B - base[0].A = 2`, while the spec's per-field key is
`hist[0].A - base[0].A = 1`; `Extra6` mixes the same way. -/
theorem claim_C3_field_mixing :
    physics.Delta6 [Delta.mk 0 1 2 0 0 0 0 0] [Delta.mk 0 0 0 0 0 0 0 0] 0 = some 2 ∧
    physics.specDelta6 [Delta.mk 0 1 2 0 0 0 0 0] [Delta.mk 0 0 0 0 0 0 0 0] 0 = some 1 ∧
    physics.Extra6 [Delta.mk 0 1 2 0 0 0 0 0] [Delta.mk 0 0 0 0 0 0 0 0]
        [Delta.mk 0 0 0 0 0 0 0 0] 0 = some 2 ∧
    physics.Delta6 [Delta.mk 0 1 2 0 0 0 0 0] [Delta.mk 0 0 0 0 0 0 0 0] 0 ≠
      physics.specDelta6 [Delta.mk 0 1 2 0 0 0 0 0] [Delta.mk 0 0 0 0 0 0 0 0] 0 := by
  refine ⟨by decide, by decide, by decide, by decide⟩

/-- C10: for every flattened index `i < 6 * N` over a frame of positive
length `N`, the accessors `Value6`, `Delta6` and `Extra6` dispatch to one
of the six field cases; the panicking `default` branch (modelled `none`)
is unreachable under the index-domain precondition. -/
theorem claim_C10_no_abort (hist base cur : List Cube) (i : ℕ)
    (hN : 0 < base.length) (hi : i < 6 * base.length) :
    (physics.Value6 base i).isSome ∧ (physics.Delta6 hist base i).isSome ∧
      (physics.Extra6 hist base cur i).isSome := by
  have hq : i / base.length < 6 :=
    Nat.div_lt_of_lt_mul (show i < base.length * 6 by omega)
  have hN0 : ¬ base.length = 0 := by omega
  obtain ⟨q, hqe⟩ : ∃ q, i / base.length = q := ⟨_, rfl⟩
  rw [hqe] at hq
  have hcases : q = 0 ∨ q = 1 ∨ q = 2 ∨ q = 3 ∨ q = 4 ∨ q = 5 := by omega
  refine ⟨?_, ?_, ?_⟩ <;>
    · simp only [physics.Value6, physics.Delta6, physics.Extra6, if_neg hN0, hqe]
      rcases hcases with h | h | h | h | h | h <;> rw [h] <;> rfl

theorem claim_C10_witness :
    0 < ([Delta.mk 0 1 2 3 4 5 6 0] : List Cube).length ∧
      3 < 6 * ([Delta.mk 0 1 2 3 4 5 6 0] : List Cube).length ∧
      ((physics.Value6 [Delta.mk 0 1 2 3 4 5 6 0] 3).isSome ∧
        (physics.Delta6 [Delta.mk 0 7 8 9 1 2 3 0] [Delta.mk 0 1 2 3 4 5 6 0] 3).isSome ∧
        (physics.Extra6 [Delta.mk 0 7 8 9 1 2 3 0] [Delta.mk 0 1 2 3 4 5 6 0]
          [Delta.mk 0 0 0 0 0 0 0 0] 3).isSome) :=
  ⟨by decide, by decide, claim_C10_no_abort [Delta.mk 0 7 8 9 1 2 3 0]
    [Delta.mk 0 1 2 3 4 5 6 0] [Delta.mk 0 0 0 0 0 0 0 0] 3 (by decide) (by decide)⟩

namespace pc

/-!
Embedding of `main.go`'s ordering engine.  `Ordering.Improve` calls the Go
standard library `sort.Sort`.  As shipped with the Go toolchains of this
repository's era (go1.4 through go1.18), `sort.Sort` on a slice of length
at most 12 runs a single gap-6 Shell-sort comparison pass followed by
insertion sort; longer slices go through quicksort, which produces the
same ascending order but with yet other tie-breaking.  The embedding
`sortGo` reproduces the small-slice path exactly (the stability
counterexample below uses 7 elements, where the embedding is exact);
no path of `sort.Sort` is stable in general — Go documents `sort.Stable`
as the stable variant, and the source calls `sort.Sort`.
-/

/-- One comparison of the gap-6 Shell pass of Go `sort.Sort`'s small-slice
path: `if data.Less(i, i-6) { data.Swap(i, i-6) }`. -/
def swapIfLess {α : Type} (less : α → α → Bool) (l : List α) (i : ℕ) : List α :=
  match l[i]?, l[i - 6]? with
  | some x, some y => if less x y then (l.set i y).set (i - 6) x else l
  | _, _ => l

/-- Index loop `for i := a+6; i < b; i++` of the Shell pass, fuel-structural
(the caller passes the list length as fuel, which bounds the iterations). -/
def shellGo {α : Type} (less : α → α → Bool) : ℕ → ℕ → List α → List α
  | _, 0, l => l
  | i, fuel + 1, l => if i < l.length then shellGo less (i + 1) fuel (swapIfLess less l i) else l

/-- The gap-6 Shell pass over the whole slice. -/
def shellPass {α : Type} (less : α → α → Bool) (l : List α) : List α :=
  shellGo less 6 l.length l

/-- Insertion step of Go's insertion sort: within a sorted prefix, the Go
loop `for j := i; j > a && data.Less(j, j-1); j--` moves the new element
left past strictly greater elements, i.e. places it before the first
strictly greater element — after all equal ones. -/
def insertAsc {α : Type} (less : α → α → Bool) (x : α) : List α → List α
  | [] => [x]
  | y :: ys => if less x y then x :: y :: ys else y :: insertAsc less x ys

/-- Go `insertionSort`, processing elements left to right. -/
def insertionSortGo {α : Type} (less : α → α → Bool) (l : List α) : List α :=
  l.foldl (fun acc x => insertAsc less x acc) []

/-- Go `sort.Sort`'s small-slice path (`if b-a > 1`: Shell pass, then
insertion sort). -/
def sortGo {α : Type} (less : α → α → Bool) (l : List α) : List α :=
  if l.length ≤ 1 then l else insertionSortGo less (shellPass less l)

/-- `IndexValue` of `main.go`'s flattened ordering tables (declared
outside the given sources; `NewOrdering` shows its two fields): object
index and flattened field id. -/
structure IndexValue where
  Index : ℕ
  Value : ℕ
deriving DecidableEq, Repr, Inhabited

/-- Field of a cube named by a flattened field id, in the id layout
`NewOrdering` builds (`ABC` tables carry ids 0-2, `XYZ` tables ids 3-5). -/
def fieldOf (d : Delta) : ℕ → ℤ
  | 0 => d.A
  | 1 => d.B
  | 2 => d.C
  | 3 => d.X
  | 4 => d.Y
  | 5 => d.Z
  | _ => 0

/-- Update of a cube field named by a flattened field id. -/
def setFieldOf (d : Delta) : ℕ → ℤ → Delta
  | 0, v => { d with A := v }
  | 1, v => { d with B := v }
  | 2, v => { d with C := v }
  | 3, v => { d with X := v }
  | 4, v => { d with Y := v }
  | 5, v => { d with Z := v }
  | _, _ => d

/-- Comparator of `byGetter` (its declaration is outside the given
sources; modelled from the spec: the `Largest`/`Interacting` permutations
are re-sorted "by ascending attribute value in baseline"): permutation
entries are compared by the baseline attribute of the objects they name. -/
def byGetterLess (get : Delta → ℤ) (deltas : List Delta) (a b : ℕ) : Bool :=
  decide (get (deltas.getD a default) < get (deltas.getD b default))

/-- Modelled from the spec: the `byDelta` comparator (declaration outside
the given sources).  The spec keys the (object, field) tables by "an
expected delta derived from `historic` vs `baseline` per field" — modelled
as the magnitude of the per-field change between the two shared frames. -/
def byDeltaLess (hist base : List Delta) (a b : IndexValue) : Bool :=
  decide ((fieldOf (hist.getD a.Index default) a.Value -
      fieldOf (base.getD a.Index default) a.Value).natAbs <
    (fieldOf (hist.getD b.Index default) b.Value -
      fieldOf (base.getD b.Index default) b.Value).natAbs)

/-- `Ordering` from `main.go`: four permutation tables. -/
structure Ordering where
  Largest : List ℕ
  Interacting : List ℕ
  ABC : List IndexValue
  XYZ : List IndexValue
deriving DecidableEq, Repr

/-- `NewOrdering` from `main.go`. -/
def NewOrdering (deltas : List Delta) : Ordering :=
  { Largest := List.range deltas.length
    Interacting := List.range deltas.length
    ABC := (List.range (deltas.length * 3)).map
      (fun i => IndexValue.mk (i % deltas.length) (i / deltas.length))
    XYZ := (List.range (deltas.length * 3)).map
      (fun i => IndexValue.mk (i % deltas.length) (i / deltas.length + 3)) }

/-- `Ordering.Improve` from `main.go` (the `dontsort` constant is `false`,
so all four `sort.Sort` calls run). -/
def Ordering.Improve (ord : Ordering) (historic baseline : List Delta) : Ordering :=
  { Largest := sortGo (byGetterLess getLargest baseline) ord.Largest
    Interacting := sortGo (byGetterLess getInteracting baseline) ord.Interacting
    ABC := sortGo (byDeltaLess historic baseline) ord.ABC
    XYZ := sortGo (byDeltaLess historic baseline) ord.XYZ }

theorem insertAsc_mem {α : Type} {less : α → α → Bool} {x a : α} :
    ∀ {l : List α}, a ∈ insertAsc less x l → a = x ∨ a ∈ l := by
  intro l
  induction l with
  | nil =>
    intro h
    simp [insertAsc] at h
    exact Or.inl h
  | cons y ys ih =>
    intro h
    by_cases hc : less x y
    · simp [insertAsc, hc] at h
      rcases h with h | h | h
      · exact Or.inl h
      · exact Or.inr (by simp [h])
      · exact Or.inr (by simp [h])
    · simp [insertAsc, hc] at h
      rcases h with h | h
      · exact Or.inr (by simp [h])
      · rcases ih h with h' | h'
        · exact Or.inl h'
        · exact Or.inr (by simp [h'])

theorem insertAsc_sorted {α : Type} {key : α → ℤ} {x : α} :
    ∀ {l : List α}, l.Pairwise (fun a b => key a ≤ key b) →
      (insertAsc (fun a b => decide (key a < key b)) x l).Pairwise
        (fun a b => key a ≤ key b) := by
  intro l
  induction l with
  | nil =>
    intro _
    simp [insertAsc]
  | cons y ys ih =>
    intro h
    rw [List.pairwise_cons] at h
    by_cases hc : key x < key y
    · have hxy : (insertAsc (fun a b => decide (key a < key b)) x (y :: ys)) =
          x :: y :: ys := by
        simp [insertAsc, hc]
      rw [hxy, List.pairwise_cons]
      constructor
      · intro a ha
        rw [List.mem_cons] at ha
        rcases ha with rfl | ha
        · omega
        · have := h.1 a ha
          omega
      · rw [List.pairwise_cons]
        exact h
    · have hxy : (insertAsc (fun a b => decide (key a < key b)) x (y :: ys)) =
          y :: insertAsc (fun a b => decide (key a < key b)) x ys := by
        simp [insertAsc, hc]
      rw [hxy, List.pairwise_cons]
      constructor
      · intro a ha
        rcases insertAsc_mem ha with h' | h'
        · subst h'
          omega
        · exact h.1 a h'
      · exact ih h.2

theorem foldl_insertAsc_sorted {α : Type} {key : α → ℤ} :
    ∀ (l acc : List α), acc.Pairwise (fun a b => key a ≤ key b) →
      (l.foldl (fun acc x => insertAsc (fun a b => decide (key a < key b)) x acc)
        acc).Pairwise (fun a b => key a ≤ key b) := by
  intro l
  induction l with
  | nil =>
    intro acc h
    exact h
  | cons x xs ih =>
    intro acc h
    exact ih _ (insertAsc_sorted h)

theorem sortGo_sorted {α : Type} (key : α → ℤ) (l : List α) :
    (sortGo (fun a b => decide (key a < key b)) l).Pairwise
      (fun a b => key a ≤ key b) := by
  by_cases h1 : l.length ≤ 1
  · rw [sortGo, if_pos h1]
    cases l with
    | nil => simp
    | cons x xs =>
      cases xs with
      | nil => simp
      | cons y ys => simp at h1
  · rw [sortGo, if_neg h1]
    exact foldl_insertAsc_sorted _ [] (by simp)

end pc

/-- C5, counterexample: `Improve` is not stable.  With seven objects whose
baseline `Largest` values are `[1,0,0,0,0,0,0]` and the identity
permutation (fresh `NewOrdering`), the gap-6 Shell pass of Go `sort.Sort`
moves element 6 in front of the equal-valued elements 1..5, producing
`[6,1,2,3,4,5,0]`, while a stable sort (pure insertion sort on the same
comparator, second conjunct) keeps the prior relative order and produces
`[1,2,3,4,5,6,0]`. -/
theorem claim_C5_counterexample :
    (pc.Ordering.Improve
        (pc.NewOrdering [Delta.mk 1 0 0 0 0 0 0 0, Delta.mk 0 0 0 0 0 0 0 0,
          Delta.mk 0 0 0 0 0 0 0 0, Delta.mk 0 0 0 0 0 0 0 0, Delta.mk 0 0 0 0 0 0 0 0,
          Delta.mk 0 0 0 0 0 0 0 0, Delta.mk 0 0 0 0 0 0 0 0])
        [Delta.mk 1 0 0 0 0 0 0 0, Delta.mk 0 0 0 0 0 0 0 0, Delta.mk 0 0 0 0 0 0 0 0,
          Delta.mk 0 0 0 0 0 0 0 0, Delta.mk 0 0 0 0 0 0 0 0, Delta.mk 0 0 0 0 0 0 0 0,
          Delta.mk 0 0 0 0 0 0 0 0]
        [Delta.mk 1 0 0 0 0 0 0 0, Delta.mk 0 0 0 0 0 0 0 0, Delta.mk 0 0 0 0 0 0 0 0,
          Delta.mk 0 0 0 0 0 0 0 0, Delta.mk 0 0 0 0 0 0 0 0, Delta.mk 0 0 0 0 0 0 0 0,
          Delta.mk 0 0 0 0 0 0 0 0]).Largest = [6, 1, 2, 3, 4, 5, 0] ∧
    pc.insertionSortGo
        (pc.byGetterLess getLargest
          [Delta.mk 1 0 0 0 0 0 0 0, Delta.mk 0 0 0 0 0 0 0 0, Delta.mk 0 0 0 0 0 0 0 0,
            Delta.mk 0 0 0 0 0 0 0 0, Delta.mk 0 0 0 0 0 0 0 0, Delta.mk 0 0 0 0 0 0 0 0,
            Delta.mk 0 0 0 0 0 0 0 0])
        [0, 1, 2, 3, 4, 5, 6] = [1, 2, 3, 4, 5, 6, 0] ∧
    ([6, 1, 2, 3, 4, 5, 0] : List ℕ) ≠ [1, 2, 3, 4, 5, 6, 0] := by
  refine ⟨by decide, by decide, by decide⟩

/-- C5 (amended): `Improve` re-sorts the `Largest` and `Interacting`
permutation tables into ascending order of the corresponding attribute
value in the baseline frame, and does so deterministically (third
conjunct: equal table contents and frames give equal results, the property
that actually keeps the two sides synchronized) — but the sort is Go's
`sort.Sort`, which is not stable: elements with equal baseline attribute
values may lose their prior relative order (see the counterexample). -/
theorem claim_C5_improve_sorts (ord ord' : pc.Ordering) (historic baseline : List Delta) :
    ((ord.Improve historic baseline).Largest.map
        (fun i => getLargest (baseline.getD i default))).Sorted (· ≤ ·) ∧
    ((ord.Improve historic baseline).Interacting.map
        (fun i => getInteracting (baseline.getD i default))).Sorted (· ≤ ·) ∧
    (ord = ord' → ord.Improve historic baseline = ord'.Improve historic baseline) := by
  refine ⟨?_, ?_, fun h => by rw [h]⟩
  · rw [List.Sorted, List.pairwise_map]
    exact pc.sortGo_sorted (fun i => getLargest (baseline.getD i default)) ord.Largest
  · rw [List.Sorted, List.pairwise_map]
    exact pc.sortGo_sorted (fun i => getInteracting (baseline.getD i default)) ord.Interacting

/-- C6: `Improve` is deterministic — two runs on componentwise identical
ordering tables and identical historic/baseline frames produce identical
permutation tables.  (In this pure embedding the Go code's freedom from
nondeterminism — no randomized pivots or tie-breaks, no map iteration, no
time dependence in the four `sort.Sort` calls — is captured by `Improve`
being a function of exactly these inputs.) -/
theorem claim_C6_deterministic (o1 o2 : pc.Ordering) (h1 h2 b1 b2 : List Delta)
    (ho : o1 = o2) (hh : h1 = h2) (hb : b1 = b2) :
    o1.Improve h1 b1 = o2.Improve h2 b2 := by
  subst ho
  subst hh
  subst hb
  rfl

theorem claim_C6_witness :
    pc.NewOrdering [Delta.mk 2 0 0 0 0 0 0 0] = pc.NewOrdering [Delta.mk 2 0 0 0 0 0 0 0] ∧
      (pc.NewOrdering [Delta.mk 2 0 0 0 0 0 0 0]).Improve [Delta.mk 3 0 0 0 0 0 0 0]
          [Delta.mk 2 0 0 0 0 0 0 0] =
        (pc.NewOrdering [Delta.mk 2 0 0 0 0 0 0 0]).Improve [Delta.mk 3 0 0 0 0 0 0 0]
          [Delta.mk 2 0 0 0 0 0 0 0] :=
  ⟨rfl, claim_C6_deterministic _ _ _ _ _ _ rfl rfl rfl⟩

namespace pc

/-!
The snapshot codec of `main.go` (`Encode`/`Decode`).  The writer/reader
helpers these call — `NewWriter`, `WriteBools`/`ReadBools`,
`WriteDelta`/`ReadDelta`, `WriteIndexed`/`ReadIndexed` — and the zigzag
helpers of the `bit` package are declared outside the given sources and
are modelled from the spec (sections 4.2, 4.3 and 4.5); the entropy coder
and the bitstream byte layer are modelled together as one lossless bit
channel (`List Bool`).  A truncated snapshot reads as if zero padded,
matching `bit.Reader`'s error value `0` with the error ignored
(`main.go`'s `Decode` is commented "ignores reading errors").
-/

/-- Read `k` bits from the channel. -/
def takeBits (k : ℕ) (s : List Bool) : ℕ × List Bool :=
  (natOfBits (s.take k), s.drop k)

/-- Modelled from the spec: `bit.ZEncode`, the zigzag signed-to-unsigned
map (`0,-1,1,-2,2,… → 0,1,2,3,4,…`). -/
def ZEncode (z : ℤ) : ℕ := if 0 ≤ z then 2 * z.toNat else 2 * (-z).toNat - 1

/-- Modelled from the spec: `bit.ZDecode`, the exact inverse of `ZEncode`. -/
def ZDecode (n : ℕ) : ℤ :=
  if n % 2 = 0 then ((n / 2 : ℕ) : ℤ) else -(((n / 2 : ℕ) : ℤ) + 1)

/-- Modelled from the spec: minimal bit width of an unsigned value
(`BitWidth(0) = 0`), fuel-structural. -/
def bitLenAux : ℕ → ℕ → ℕ
  | 0, _ => 0
  | fuel + 1, n => if n = 0 then 0 else bitLenAux fuel (n / 2) + 1

/-- Minimal number of bits of `n`. -/
def bitLen (n : ℕ) : ℕ := bitLenAux n n

/-- Changed flags of `main.go`'s `Encode`: `baseline[i] != current[i]` per
object, in natural order (the source stores the negation, `nochange`; the
transmitted presence bit uses the spec's polarity, bit set = changed). -/
def changedFlags (baseline current : List Delta) : List Bool :=
  (List.range baseline.length).map
    (fun i => decide (¬ baseline.getD i default = current.getD i default))

/-- Modelled from the spec: `WriteBools` codes each presence flag as one
bit through the mostly-zero model. -/
def WriteBools (chg : List Bool) : List Bool := chg

/-- Modelled from the spec: `ReadBools` reads one presence bit per object;
flags beyond a truncated snapshot stay at the zero value `false`. -/
def ReadBools (n : ℕ) (s : List Bool) : List Bool × List Bool :=
  (s.take n ++ List.replicate (n - s.length) false, s.drop n)

/-- Modelled from the spec: the Largest half of `WriteDelta`: for each
changed object, in the traversal order of the given permutation,
entropy-code the 2-bit `current.Largest XOR baseline.Largest` one
bit-plane at a time, low bit first (the XOR is on the 2-bit enum domain,
hence `Nat` xor of the two-bit patterns). -/
def writeLargest (ordL : List ℕ) (chg : ℕ → Bool) (baseline current : List Delta) :
    List Bool :=
  ordL.foldr (fun i acc =>
    if chg i then
      bitsOfNat 2 ((baseline.getD i default).Largest.toNat ^^^
        (current.getD i default).Largest.toNat) ++ acc
    else acc) []

/-- Modelled from the spec: the Largest half of `ReadDelta`, mirroring
`writeLargest` against the shared baseline. -/
def readLargest (baseline : List Delta) (chg : ℕ → Bool) :
    List ℕ → List Delta → List Bool → List Delta × List Bool
  | [], fr, s => (fr, s)
  | i :: is, fr, s =>
    if chg i then
      readLargest baseline chg is
        (fr.set i { fr.getD i default with
          Largest := Int.ofNat ((baseline.getD i default).Largest.toNat ^^^
            (takeBits 2 s).1) })
        (takeBits 2 s).2
    else readLargest baseline chg is fr s

/-- Modelled from the spec: the Interacting half of `WriteDelta`: for each
changed object, in the traversal order of the given permutation, one bit
equal to `current.Interacting XOR baseline.Interacting` (the xor of the
two 0/1 flags is their inequality). -/
def writeInteracting (ordI : List ℕ) (chg : ℕ → Bool) (baseline current : List Delta) :
    List Bool :=
  ordI.foldr (fun i acc =>
    if chg i then
      decide (¬ (baseline.getD i default).Interacting =
        (current.getD i default).Interacting) :: acc
    else acc) []

/-- Modelled from the spec: the Interacting half of `ReadDelta`: xor the
decoded bit back onto the baseline flag (on the 0/1 flag domain). -/
def readInteracting (baseline : List Delta) (chg : ℕ → Bool) :
    List ℕ → List Delta → List Bool → List Delta × List Bool
  | [], fr, s => (fr, s)
  | i :: is, fr, s =>
    if chg i then
      readInteracting baseline chg is
        (fr.set i { fr.getD i default with
          Interacting := if s.headD false then 1 - (baseline.getD i default).Interacting
            else (baseline.getD i default).Interacting })
        (s.drop 1)
    else readInteracting baseline chg is fr s

/-- Chunk of the indexed pass for one (object, field) entry: the zigzag
delta of the entry's field against baseline, sent as a 6-bit width prefix
followed by that many value bits (spec section 9 leaves the width-prefix
layout to the implementation; the only requirement is that encoder and
decoder agree). -/
def deltaChunk (baseline current : List Delta) (iv : IndexValue) : List Bool :=
  bitsOfNat 6 (bitLen (ZEncode (fieldOf (current.getD iv.Index default) iv.Value -
      fieldOf (baseline.getD iv.Index default) iv.Value))) ++
    bitsOfNat (bitLen (ZEncode (fieldOf (current.getD iv.Index default) iv.Value -
      fieldOf (baseline.getD iv.Index default) iv.Value)))
      (ZEncode (fieldOf (current.getD iv.Index default) iv.Value -
        fieldOf (baseline.getD iv.Index default) iv.Value))

/-- Modelled from the spec: `WriteIndexed` walks the (object, field) table
in table order and, for each entry whose object is changed, bit-packs the
entry's zigzag width/value chunk. -/
def WriteIndexed (table : List IndexValue) (chg : ℕ → Bool)
    (baseline current : List Delta) : List Bool :=
  table.foldr (fun iv acc =>
    if chg iv.Index then deltaChunk baseline current iv ++ acc else acc) []

/-- Modelled from the spec: `ReadIndexed` mirrors `WriteIndexed`,
reconstructing each coded field as baseline plus the decoded delta. -/
def ReadIndexed (baseline : List Delta) (chg : ℕ → Bool) :
    List IndexValue → List Delta → List Bool → List Delta × List Bool
  | [], fr, s => (fr, s)
  | iv :: ivs, fr, s =>
    if chg iv.Index then
      ReadIndexed baseline chg ivs
        (fr.set iv.Index (setFieldOf (fr.getD iv.Index default) iv.Value
          (fieldOf (baseline.getD iv.Index default) iv.Value +
            ZDecode (takeBits (takeBits 6 s).1 (takeBits 6 s).2).1)))
        (takeBits (takeBits 6 s).1 (takeBits 6 s).2).2
    else ReadIndexed baseline chg ivs fr s

/-- `Encode` from `main.go`: presence bools, Largest pass, Interacting
pass, then the two indexed passes over the `ABC` and `XYZ` tables, in the
source's call order. -/
def Encode (ord : Ordering) (baseline current : List Delta) : List Bool :=
  WriteBools (changedFlags baseline current) ++
    writeLargest ord.Largest (fun i => (changedFlags baseline current).getD i false)
      baseline current ++
    writeInteracting ord.Interacting (fun i => (changedFlags baseline current).getD i false)
      baseline current ++
    WriteIndexed ord.ABC (fun i => (changedFlags baseline current).getD i false)
      baseline current ++
    WriteIndexed ord.XYZ (fun i => (changedFlags baseline current).getD i false)
      baseline current

/-- `Decode` from `main.go` ("ignores reading errors"): read the presence
bools, start from a copy of `baseline`, and mirror every pass in the
identical order.  It is total: any byte/bit sequence, including a
truncated or corrupted one, decodes to some frame. -/
def Decode (ord : Ordering) (baseline : List Delta) (snapshot : List Bool) : List Delta :=
  let t0 := ReadBools baseline.length snapshot
  let chg := fun i => t0.1.getD i false
  let t1 := readLargest baseline chg ord.Largest baseline t0.2
  let t2 := readInteracting baseline chg ord.Interacting t1.1 t1.2
  let t3 := ReadIndexed baseline chg ord.ABC t2.1 t2.2
  let t4 := ReadIndexed baseline chg ord.XYZ t3.1 t3.2
  t4.1

end pc

namespace pc

theorem getD_set_ne {l : List Delta} {i k : ℕ} {v : Delta} (h : i ≠ k) :
    (l.set i v).getD k default = l.getD k default := by
  simp [List.getD_eq_getElem?_getD, List.getElem?_set_ne h]

theorem readLargest_length (baseline : List Delta) (chg : ℕ → Bool) :
    ∀ (is : List ℕ) (fr : List Delta) (s : List Bool),
      (readLargest baseline chg is fr s).1.length = fr.length := by
  intro is
  induction is with
  | nil =>
    intro fr s
    rfl
  | cons i is ih =>
    intro fr s
    by_cases hc : chg i
    · simp only [readLargest, if_pos hc]
      rw [ih]
      simp
    · simp only [readLargest, if_neg hc]
      exact ih fr s

theorem readInteracting_length (baseline : List Delta) (chg : ℕ → Bool) :
    ∀ (is : List ℕ) (fr : List Delta) (s : List Bool),
      (readInteracting baseline chg is fr s).1.length = fr.length := by
  intro is
  induction is with
  | nil =>
    intro fr s
    rfl
  | cons i is ih =>
    intro fr s
    by_cases hc : chg i
    · simp only [readInteracting, if_pos hc]
      rw [ih]
      simp
    · simp only [readInteracting, if_neg hc]
      exact ih fr s

theorem ReadIndexed_length (baseline : List Delta) (chg : ℕ → Bool) :
    ∀ (ivs : List IndexValue) (fr : List Delta) (s : List Bool),
      (ReadIndexed baseline chg ivs fr s).1.length = fr.length := by
  intro ivs
  induction ivs with
  | nil =>
    intro fr s
    rfl
  | cons iv ivs ih =>
    intro fr s
    by_cases hc : chg iv.Index
    · simp only [ReadIndexed, if_pos hc]
      rw [ih]
      simp
    · simp only [ReadIndexed, if_neg hc]
      exact ih fr s

theorem readLargest_preserve (baseline : List Delta) (chg : ℕ → Bool) {k : ℕ}
    (hk : chg k = false) :
    ∀ (is : List ℕ) (fr : List Delta) (s : List Bool),
      (readLargest baseline chg is fr s).1.getD k default = fr.getD k default := by
  intro is
  induction is with
  | nil =>
    intro fr s
    rfl
  | cons i is ih =>
    intro fr s
    by_cases hc : chg i
    · have hik : i ≠ k := by
        intro h
        rw [h, hk] at hc
        exact absurd hc (by simp)
      simp only [readLargest, if_pos hc]
      rw [ih, getD_set_ne hik]
    · simp only [readLargest, if_neg hc]
      exact ih fr s

theorem readInteracting_preserve (baseline : List Delta) (chg : ℕ → Bool) {k : ℕ}
    (hk : chg k = false) :
    ∀ (is : List ℕ) (fr : List Delta) (s : List Bool),
      (readInteracting baseline chg is fr s).1.getD k default = fr.getD k default := by
  intro is
  induction is with
  | nil =>
    intro fr s
    rfl
  | cons i is ih =>
    intro fr s
    by_cases hc : chg i
    · have hik : i ≠ k := by
        intro h
        rw [h, hk] at hc
        exact absurd hc (by simp)
      simp only [readInteracting, if_pos hc]
      rw [ih, getD_set_ne hik]
    · simp only [readInteracting, if_neg hc]
      exact ih fr s

theorem ReadIndexed_preserve (baseline : List Delta) (chg : ℕ → Bool) {k : ℕ}
    (hk : chg k = false) :
    ∀ (ivs : List IndexValue) (fr : List Delta) (s : List Bool),
      (ReadIndexed baseline chg ivs fr s).1.getD k default = fr.getD k default := by
  intro ivs
  induction ivs with
  | nil =>
    intro fr s
    rfl
  | cons iv ivs ih =>
    intro fr s
    by_cases hc : chg iv.Index
    · have hik : iv.Index ≠ k := by
        intro h
        rw [h, hk] at hc
        exact absurd hc (by simp)
      simp only [ReadIndexed, if_pos hc]
      rw [ih, getD_set_ne hik]
    · simp only [ReadIndexed, if_neg hc]
      exact ih fr s

end pc

/-- C7: `Decode` never reports an error to its caller: it is a total
function of the snapshot — for every input bit sequence, including one
truncated or corrupted relative to what `Encode` produced, every pass
completes (reads past the end behave as reads of zero bits, the read
error being deliberately ignored as in the source, which is commented
"ignores reading errors" and whose passes return no error) and a full
reconstructed frame of the baseline's length is returned. -/
theorem claim_C7_total (ord : pc.Ordering) (baseline : List Delta)
    (snapshot : List Bool) :
    (pc.Decode ord baseline snapshot).length = baseline.length := by
  simp only [pc.Decode]
  rw [pc.ReadIndexed_length, pc.ReadIndexed_length, pc.readInteracting_length,
    pc.readLargest_length]

/-- C9: `Decode` reconstructs the current frame starting from a copy of
the baseline frame, and only the passes for changed objects touch it:
for every object index whose decoded presence bit is 0 (unchanged), every
field of the decoded cube at that index equals the baseline cube —
whatever the snapshot bits are. -/
theorem claim_C9_unchanged_is_baseline (ord : pc.Ordering) (baseline : List Delta)
    (snapshot : List Bool) (k : ℕ)
    (hbit : (pc.ReadBools baseline.length snapshot).1.getD k false = false) :
    (pc.Decode ord baseline snapshot).getD k default = baseline.getD k default := by
  simp only [pc.Decode]
  rw [pc.ReadIndexed_preserve _ _ hbit, pc.ReadIndexed_preserve _ _ hbit,
    pc.readInteracting_preserve _ _ hbit, pc.readLargest_preserve _ _ hbit]

theorem claim_C9_witness :
    (pc.ReadBools ([Delta.mk 1 2 3 4 5 6 7 0] : List Delta).length [false, true]).1.getD 0
        false = false ∧
      (pc.Decode (pc.NewOrdering [Delta.mk 1 2 3 4 5 6 7 0]) [Delta.mk 1 2 3 4 5 6 7 0]
          [false, true]).getD 0 default =
        ([Delta.mk 1 2 3 4 5 6 7 0] : List Delta).getD 0 default :=
  ⟨by decide, claim_C9_unchanged_is_baseline (pc.NewOrdering [Delta.mk 1 2 3 4 5 6 7 0])
    [Delta.mk 1 2 3 4 5 6 7 0] [false, true] 0 (by decide)⟩

namespace pc

theorem ZDecode_ZEncode (z : ℤ) : ZDecode (ZEncode z) = z := by
  by_cases h : 0 ≤ z
  · simp only [ZEncode, if_pos h, ZDecode]
    have hmod : (2 * z.toNat) % 2 = 0 := by omega
    rw [if_pos hmod]
    omega
  · simp only [ZEncode, if_neg h, ZDecode]
    have h1 : 1 ≤ (-z).toNat := by omega
    have hmod : ¬ (2 * (-z).toNat - 1) % 2 = 0 := by omega
    rw [if_neg hmod]
    omega

theorem ZEncode_lt {z : ℤ} (h1 : -(2 ^ 32) < z) (h2 : z < 2 ^ 32) :
    ZEncode z < 2 ^ 33 := by
  simp only [ZEncode]
  split <;> omega

theorem bitLenAux_spec :
    ∀ fuel n, n ≤ fuel →
      n < 2 ^ bitLenAux fuel n ∧ ∀ w, n < 2 ^ w → bitLenAux fuel n ≤ w := by
  intro fuel
  induction fuel with
  | zero =>
    intro n h
    have h0 : n = 0 := by omega
    subst h0
    exact ⟨by norm_num, fun w _ => Nat.zero_le w⟩
  | succ fuel ih =>
    intro n h
    by_cases h0 : n = 0
    · subst h0
      simp only [bitLenAux, if_pos rfl]
      exact ⟨by norm_num, fun w _ => Nat.zero_le w⟩
    · simp only [bitLenAux, if_neg h0]
      have hrec := ih (n / 2) (by omega)
      constructor
      · have := hrec.1
        rw [pow_succ]
        omega
      · intro w hw
        have hw1 : 1 ≤ w := by
          by_contra hc
          have hw0 : w = 0 := by omega
          subst hw0
          simp at hw
          omega
        have hdivlt : n / 2 < 2 ^ (w - 1) := by
          have h2 : 2 ^ w = 2 ^ (w - 1) * 2 := by
            rw [← pow_succ]
            congr 1
            omega
          omega
        have := hrec.2 (w - 1) hdivlt
        omega

theorem bitLen_bound (n : ℕ) : n < 2 ^ bitLen n :=
  (bitLenAux_spec n n (le_refl n)).1

theorem bitLen_le {n w : ℕ} (h : n < 2 ^ w) : bitLen n ≤ w :=
  (bitLenAux_spec n n (le_refl n)).2 w h

theorem takeBits_append {k x : ℕ} (rest : List Bool) (hx : x < 2 ^ k) :
    takeBits k (bitsOfNat k x ++ rest) = (x, rest) := by
  simp only [takeBits]
  rw [List.take_left' (length_bitsOfNat k x), List.drop_left' (length_bitsOfNat k x),
    natOfBits_bitsOfNat_of_lt hx]

theorem getD_set_self {l : List Delta} {k : ℕ} {v : Delta} (h : k < l.length) :
    (l.set k v).getD k default = v := by
  simp [List.getD_eq_getElem?_getD, List.getElem?_set_self h]

theorem getD_eq_getElem {l : List Delta} {k : ℕ} (h : k < l.length) :
    l.getD k default = l[k] := by
  rw [List.getD_eq_getElem?_getD, List.getElem?_eq_getElem h]
  rfl

theorem xor_lt_four {a b : ℕ} (ha : a < 4) (hb : b < 4) : a ^^^ b < 4 := by
  have h4 : (4 : ℕ) = 2 ^ 2 := by norm_num
  rw [h4] at *
  exact Nat.xor_lt_two_pow ha hb

/-- Data-model domain of a cube: `Largest` is the 2-bit largest-component
enum, `Interacting` a 0/1 flag, and the six position/orientation fields
are `int32` values. -/
abbrev validCube (d : Delta) : Prop :=
  0 ≤ d.Largest ∧ d.Largest < 4 ∧ (d.Interacting = 0 ∨ d.Interacting = 1) ∧
    -(2 ^ 31) ≤ d.A ∧ d.A < 2 ^ 31 ∧ -(2 ^ 31) ≤ d.B ∧ d.B < 2 ^ 31 ∧
    -(2 ^ 31) ≤ d.C ∧ d.C < 2 ^ 31 ∧ -(2 ^ 31) ≤ d.X ∧ d.X < 2 ^ 31 ∧
    -(2 ^ 31) ≤ d.Y ∧ d.Y < 2 ^ 31 ∧ -(2 ^ 31) ≤ d.Z ∧ d.Z < 2 ^ 31

theorem setFieldOf_Largest (d : Delta) (f : ℕ) (v : ℤ) :
    (setFieldOf d f v).Largest = d.Largest := by
  rcases f with _ | _ | _ | _ | _ | _ | f <;> rfl

theorem setFieldOf_Interacting (d : Delta) (f : ℕ) (v : ℤ) :
    (setFieldOf d f v).Interacting = d.Interacting := by
  rcases f with _ | _ | _ | _ | _ | _ | f <;> rfl

theorem fieldOf_setFieldOf_self (d : Delta) {f : ℕ} (hf : f < 6) (v : ℤ) :
    fieldOf (setFieldOf d f v) f = v := by
  rcases f with _ | _ | _ | _ | _ | _ | f
  · rfl
  · rfl
  · rfl
  · rfl
  · rfl
  · rfl
  · omega

theorem fieldOf_setFieldOf_ne (d : Delta) {f g : ℕ} (hfg : f ≠ g) (v : ℤ) :
    fieldOf (setFieldOf d f v) g = fieldOf d g := by
  rcases f with _ | _ | _ | _ | _ | _ | f <;>
    rcases g with _ | _ | _ | _ | _ | _ | g <;>
      first
        | rfl
        | exact absurd rfl hfg
        | omega

end pc

namespace pc

/-- Frame effect of the decoded Largest pass. -/
def applyLargest (chg : ℕ → Bool) (current : List Delta) (is : List ℕ)
    (fr : List Delta) : List Delta :=
  is.foldl (fun f i =>
    if chg i then
      f.set i { f.getD i default with Largest := (current.getD i default).Largest }
    else f) fr

/-- Frame effect of the decoded Interacting pass. -/
def applyInteracting (chg : ℕ → Bool) (current : List Delta) (is : List ℕ)
    (fr : List Delta) : List Delta :=
  is.foldl (fun f i =>
    if chg i then
      f.set i { f.getD i default with Interacting := (current.getD i default).Interacting }
    else f) fr

/-- Frame effect of a decoded indexed pass. -/
def applyIndexed (chg : ℕ → Bool) (current : List Delta) (ivs : List IndexValue)
    (fr : List Delta) : List Delta :=
  ivs.foldl (fun f iv =>
    if chg iv.Index then
      f.set iv.Index (setFieldOf (f.getD iv.Index default) iv.Value
        (fieldOf (current.getD iv.Index default) iv.Value))
    else f) fr

theorem readLargest_rt (baseline current : List Delta) (chg : ℕ → Bool)
    (hdom : ∀ i, chg i = true →
      0 ≤ (baseline.getD i default).Largest ∧ (baseline.getD i default).Largest < 4 ∧
        0 ≤ (current.getD i default).Largest ∧ (current.getD i default).Largest < 4) :
    ∀ (is : List ℕ) (fr : List Delta) (rest : List Bool),
      readLargest baseline chg is fr (writeLargest is chg baseline current ++ rest) =
        (applyLargest chg current is fr, rest) := by
  intro is
  induction is with
  | nil =>
    intro fr rest
    simp [readLargest, writeLargest, applyLargest]
  | cons i is ih =>
    intro fr rest
    by_cases hc : chg i
    · have hd := hdom i hc
      have hblt : (baseline.getD i default).Largest.toNat < 4 := by omega
      have hclt : (current.getD i default).Largest.toNat < 4 := by omega
      have hxlt : (baseline.getD i default).Largest.toNat ^^^
          (current.getD i default).Largest.toNat < 4 := xor_lt_four hblt hclt
      have hw : writeLargest (i :: is) chg baseline current =
          bitsOfNat 2 ((baseline.getD i default).Largest.toNat ^^^
            (current.getD i default).Largest.toNat) ++ writeLargest is chg baseline current := by
        simp [writeLargest, hc]
      have h4 : (4 : ℕ) = 2 ^ 2 := by norm_num
      have htb := takeBits_append
        (k := 2) (x := (baseline.getD i default).Largest.toNat ^^^
          (current.getD i default).Largest.toNat)
        (writeLargest is chg baseline current ++ rest) (by omega)
      have hval : Int.ofNat ((baseline.getD i default).Largest.toNat ^^^
          ((baseline.getD i default).Largest.toNat ^^^
            (current.getD i default).Largest.toNat)) =
          (current.getD i default).Largest := by
        rw [Nat.xor_cancel_left]
        exact Int.toNat_of_nonneg (by omega)
      rw [hw, List.append_assoc]
      simp only [readLargest, if_pos hc, htb, hval]
      rw [ih]
      simp [applyLargest, hc]
    · have hw : writeLargest (i :: is) chg baseline current =
          writeLargest is chg baseline current := by
        simp [writeLargest, hc]
      rw [hw]
      simp only [readLargest, if_neg hc]
      rw [ih]
      simp [applyLargest, hc]

theorem readInteracting_rt (baseline current : List Delta) (chg : ℕ → Bool)
    (hdom : ∀ i, chg i = true →
      ((baseline.getD i default).Interacting = 0 ∨ (baseline.getD i default).Interacting = 1) ∧
        ((current.getD i default).Interacting = 0 ∨ (current.getD i default).Interacting = 1)) :
    ∀ (is : List ℕ) (fr : List Delta) (rest : List Bool),
      readInteracting baseline chg is fr
          (writeInteracting is chg baseline current ++ rest) =
        (applyInteracting chg current is fr, rest) := by
  intro is
  induction is with
  | nil =>
    intro fr rest
    simp [readInteracting, writeInteracting, applyInteracting]
  | cons i is ih =>
    intro fr rest
    by_cases hc : chg i
    · have hd := hdom i hc
      have hw : writeInteracting (i :: is) chg baseline current =
          decide (¬ (baseline.getD i default).Interacting =
            (current.getD i default).Interacting) ::
            writeInteracting is chg baseline current := by
        simp [writeInteracting, hc]
      have hval : (if (decide (¬ (baseline.getD i default).Interacting =
          (current.getD i default).Interacting) : Bool) then
            1 - (baseline.getD i default).Interacting
          else (baseline.getD i default).Interacting) =
          (current.getD i default).Interacting := by
        by_cases heq : (baseline.getD i default).Interacting =
            (current.getD i default).Interacting
        · rw [heq]
          simp
        · have hdec : (decide (¬ (baseline.getD i default).Interacting =
              (current.getD i default).Interacting)) = true := by simpa using heq
          rw [hdec, if_pos rfl]
          rcases hd.1 with h1 | h1 <;> rcases hd.2 with h2 | h2 <;>
            rw [h1, h2] at heq ⊢ <;> first | exact absurd rfl heq | norm_num
      rw [hw]
      simp only [readInteracting, if_pos hc, List.cons_append, List.headD_cons,
        List.drop_succ_cons, List.drop_zero, hval]
      rw [ih]
      simp [applyInteracting, hc]
    · have hw : writeInteracting (i :: is) chg baseline current =
          writeInteracting is chg baseline current := by
        simp [writeInteracting, hc]
      rw [hw]
      simp only [readInteracting, if_neg hc]
      rw [ih]
      simp [applyInteracting, hc]

theorem ReadIndexed_rt (baseline current : List Delta) (chg : ℕ → Bool)
    (hdom : ∀ i, chg i = true → ∀ f, f < 6 →
      -(2 ^ 31) ≤ fieldOf (baseline.getD i default) f ∧
        fieldOf (baseline.getD i default) f < 2 ^ 31 ∧
        -(2 ^ 31) ≤ fieldOf (current.getD i default) f ∧
        fieldOf (current.getD i default) f < 2 ^ 31) :
    ∀ (ivs : List IndexValue), (∀ iv ∈ ivs, iv.Value < 6) →
      ∀ (fr : List Delta) (rest : List Bool),
        ReadIndexed baseline chg ivs fr
            (WriteIndexed ivs chg baseline current ++ rest) =
          (applyIndexed chg current ivs fr, rest) := by
  intro ivs
  induction ivs with
  | nil =>
    intro _ fr rest
    simp [ReadIndexed, WriteIndexed, applyIndexed]
  | cons iv ivs ih =>
    intro hv fr rest
    have hv6 : iv.Value < 6 := hv iv (by simp)
    by_cases hc : chg iv.Index
    · have hd := hdom iv.Index hc iv.Value hv6
      have hdvlt : ZEncode (fieldOf (current.getD iv.Index default) iv.Value -
          fieldOf (baseline.getD iv.Index default) iv.Value) < 2 ^ 33 :=
        ZEncode_lt (by omega) (by omega)
      have hwlt : bitLen (ZEncode (fieldOf (current.getD iv.Index default) iv.Value -
          fieldOf (baseline.getD iv.Index default) iv.Value)) < 2 ^ 6 := by
        have h33 : bitLen (ZEncode (fieldOf (current.getD iv.Index default) iv.Value -
            fieldOf (baseline.getD iv.Index default) iv.Value)) ≤ 33 := bitLen_le hdvlt
        omega
      have hw : WriteIndexed (iv :: ivs) chg baseline current =
          deltaChunk baseline current iv ++ WriteIndexed ivs chg baseline current := by
        simp [WriteIndexed, hc]
      have htb1 := takeBits_append
        (k := 6) (x := bitLen (ZEncode (fieldOf (current.getD iv.Index default) iv.Value -
          fieldOf (baseline.getD iv.Index default) iv.Value)))
        (bitsOfNat (bitLen (ZEncode (fieldOf (current.getD iv.Index default) iv.Value -
          fieldOf (baseline.getD iv.Index default) iv.Value)))
          (ZEncode (fieldOf (current.getD iv.Index default) iv.Value -
            fieldOf (baseline.getD iv.Index default) iv.Value)) ++
          (WriteIndexed ivs chg baseline current ++ rest)) hwlt
      have htb2 := takeBits_append
        (k := bitLen (ZEncode (fieldOf (current.getD iv.Index default) iv.Value -
          fieldOf (baseline.getD iv.Index default) iv.Value)))
        (x := ZEncode (fieldOf (current.getD iv.Index default) iv.Value -
          fieldOf (baseline.getD iv.Index default) iv.Value))
        (WriteIndexed ivs chg baseline current ++ rest) (bitLen_bound _)
      have hval : fieldOf (baseline.getD iv.Index default) iv.Value +
          ZDecode (ZEncode (fieldOf (current.getD iv.Index default) iv.Value -
            fieldOf (baseline.getD iv.Index default) iv.Value)) =
          fieldOf (current.getD iv.Index default) iv.Value := by
        rw [ZDecode_ZEncode]
        ring
      rw [hw]
      simp only [deltaChunk, List.append_assoc]
      simp only [ReadIndexed, if_pos hc, htb1, htb2, hval]
      rw [ih (fun q hq => hv q (by simp [hq]))]
      simp [applyIndexed, hc]
    · have hw : WriteIndexed (iv :: ivs) chg baseline current =
          WriteIndexed ivs chg baseline current := by
        simp [WriteIndexed, hc]
      rw [hw]
      simp only [ReadIndexed, if_neg hc]
      rw [ih (fun q hq => hv q (by simp [hq]))]
      simp [applyIndexed, hc]

end pc

namespace pc

theorem applyLargest_length (chg : ℕ → Bool) (current : List Delta) :
    ∀ (is : List ℕ) (fr : List Delta),
      (applyLargest chg current is fr).length = fr.length := by
  intro is
  induction is with
  | nil =>
    intro fr
    rfl
  | cons i is ih =>
    intro fr
    by_cases hc : chg i
    · have hstep : applyLargest chg current (i :: is) fr = applyLargest chg current is
          (fr.set i { fr.getD i default with Largest := (current.getD i default).Largest }) := by
        simp [applyLargest, hc]
      rw [hstep, ih]
      simp
    · have hstep : applyLargest chg current (i :: is) fr = applyLargest chg current is fr := by
        simp [applyLargest, hc]
      rw [hstep, ih]

theorem applyInteracting_length (chg : ℕ → Bool) (current : List Delta) :
    ∀ (is : List ℕ) (fr : List Delta),
      (applyInteracting chg current is fr).length = fr.length := by
  intro is
  induction is with
  | nil =>
    intro fr
    rfl
  | cons i is ih =>
    intro fr
    by_cases hc : chg i
    · have hstep : applyInteracting chg current (i :: is) fr = applyInteracting chg current is
          (fr.set i { fr.getD i default with
            Interacting := (current.getD i default).Interacting }) := by
        simp [applyInteracting, hc]
      rw [hstep, ih]
      simp
    · have hstep : applyInteracting chg current (i :: is) fr =
          applyInteracting chg current is fr := by
        simp [applyInteracting, hc]
      rw [hstep, ih]

theorem applyIndexed_length (chg : ℕ → Bool) (current : List Delta) :
    ∀ (ivs : List IndexValue) (fr : List Delta),
      (applyIndexed chg current ivs fr).length = fr.length := by
  intro ivs
  induction ivs with
  | nil =>
    intro fr
    rfl
  | cons iv ivs ih =>
    intro fr
    by_cases hc : chg iv.Index
    · have hstep : applyIndexed chg current (iv :: ivs) fr = applyIndexed chg current ivs
          (fr.set iv.Index (setFieldOf (fr.getD iv.Index default) iv.Value
            (fieldOf (current.getD iv.Index default) iv.Value))) := by
        simp [applyIndexed, hc]
      rw [hstep, ih]
      simp
    · have hstep : applyIndexed chg current (iv :: ivs) fr =
          applyIndexed chg current ivs fr := by
        simp [applyIndexed, hc]
      rw [hstep, ih]

theorem applyLargest_getD (chg : ℕ → Bool) (current : List Delta) :
    ∀ (is : List ℕ) (fr : List Delta) (k : ℕ), k < fr.length →
      (applyLargest chg current is fr).getD k default =
        if chg k = true ∧ k ∈ is then
          { fr.getD k default with Largest := (current.getD k default).Largest }
        else fr.getD k default := by
  intro is
  induction is with
  | nil =>
    intro fr k hk
    simp [applyLargest]
  | cons i is ih =>
    intro fr k hk
    by_cases hci : chg i
    · have hstep : applyLargest chg current (i :: is) fr = applyLargest chg current is
          (fr.set i { fr.getD i default with Largest := (current.getD i default).Largest }) := by
        simp [applyLargest, hci]
      rw [hstep, ih _ k (by simpa using hk)]
      by_cases hki : k = i
      · subst hki
        rw [getD_set_self hk]
        rw [if_pos (⟨hci, by simp⟩ : chg k = true ∧ k ∈ k :: is)]
        split
        · rfl
        · rfl
      · rw [getD_set_ne (fun h => hki h.symm)]
        simp only [List.mem_cons, hki, false_or]
    · have hstep : applyLargest chg current (i :: is) fr = applyLargest chg current is fr := by
        simp [applyLargest, hci]
      rw [hstep, ih _ k hk]
      by_cases hki : k = i
      · subst hki
        have hk0 : chg k = false := by simpa using hci
        simp [hk0]
      · simp only [List.mem_cons, hki, false_or]

theorem applyInteracting_getD (chg : ℕ → Bool) (current : List Delta) :
    ∀ (is : List ℕ) (fr : List Delta) (k : ℕ), k < fr.length →
      (applyInteracting chg current is fr).getD k default =
        if chg k = true ∧ k ∈ is then
          { fr.getD k default with Interacting := (current.getD k default).Interacting }
        else fr.getD k default := by
  intro is
  induction is with
  | nil =>
    intro fr k hk
    simp [applyInteracting]
  | cons i is ih =>
    intro fr k hk
    by_cases hci : chg i
    · have hstep : applyInteracting chg current (i :: is) fr = applyInteracting chg current is
          (fr.set i { fr.getD i default with
            Interacting := (current.getD i default).Interacting }) := by
        simp [applyInteracting, hci]
      rw [hstep, ih _ k (by simpa using hk)]
      by_cases hki : k = i
      · subst hki
        rw [getD_set_self hk]
        rw [if_pos (⟨hci, by simp⟩ : chg k = true ∧ k ∈ k :: is)]
        split
        · rfl
        · rfl
      · rw [getD_set_ne (fun h => hki h.symm)]
        simp only [List.mem_cons, hki, false_or]
    · have hstep : applyInteracting chg current (i :: is) fr =
          applyInteracting chg current is fr := by
        simp [applyInteracting, hci]
      rw [hstep, ih _ k hk]
      by_cases hki : k = i
      · subst hki
        have hk0 : chg k = false := by simpa using hci
        simp [hk0]
      · simp only [List.mem_cons, hki, false_or]

theorem applyIndexed_getD (chg : ℕ → Bool) (current : List Delta) :
    ∀ (ivs : List IndexValue), (∀ iv ∈ ivs, iv.Value < 6) →
      ∀ (fr : List Delta) (k : ℕ), k < fr.length →
        (∀ f, f < 6 → fieldOf ((applyIndexed chg current ivs fr).getD k default) f =
          (if chg k = true ∧ IndexValue.mk k f ∈ ivs then
            fieldOf (current.getD k default) f
          else fieldOf (fr.getD k default) f)) ∧
        ((applyIndexed chg current ivs fr).getD k default).Largest =
          (fr.getD k default).Largest ∧
        ((applyIndexed chg current ivs fr).getD k default).Interacting =
          (fr.getD k default).Interacting := by
  intro ivs
  induction ivs with
  | nil =>
    intro _ fr k hk
    refine ⟨fun f hf => ?_, rfl, rfl⟩
    simp [applyIndexed]
  | cons iv ivs ih =>
    intro hv fr k hk
    have hv6 : iv.Value < 6 := hv iv (by simp)
    by_cases hci : chg iv.Index
    · have hstep : applyIndexed chg current (iv :: ivs) fr = applyIndexed chg current ivs
          (fr.set iv.Index (setFieldOf (fr.getD iv.Index default) iv.Value
            (fieldOf (current.getD iv.Index default) iv.Value))) := by
        simp [applyIndexed, hci]
      have ih' := ih (fun q hq => hv q (by simp [hq]))
        (fr.set iv.Index (setFieldOf (fr.getD iv.Index default) iv.Value
          (fieldOf (current.getD iv.Index default) iv.Value))) k (by simpa using hk)
      by_cases hki : k = iv.Index
      · have hset : (fr.set iv.Index (setFieldOf (fr.getD iv.Index default) iv.Value
            (fieldOf (current.getD iv.Index default) iv.Value))).getD k default =
            setFieldOf (fr.getD iv.Index default) iv.Value
              (fieldOf (current.getD iv.Index default) iv.Value) := by
          rw [hki]
          exact getD_set_self (hki ▸ hk)
        have hck : chg k = true := by
          rw [hki]
          exact hci
        refine ⟨fun f hf => ?_, ?_, ?_⟩
        · rw [hstep, ih'.1 f hf, hset]
          by_cases hmem : IndexValue.mk k f ∈ ivs
          · rw [if_pos ⟨hck, hmem⟩, if_pos ⟨hck, List.mem_cons_of_mem _ hmem⟩]
          · rw [if_neg (fun hh => hmem hh.2)]
            by_cases hfv : f = iv.Value
            · subst hfv
              rw [fieldOf_setFieldOf_self _ hv6]
              have hmem2 : IndexValue.mk k iv.Value ∈ iv :: ivs := by
                have heta : IndexValue.mk k iv.Value = iv := by
                  rw [hki]
                exact heta ▸ List.mem_cons_self _ _
              rw [if_pos ⟨hck, hmem2⟩, hki]
            · rw [fieldOf_setFieldOf_ne _ (fun h => hfv h.symm)]
              have hnmem : ¬ (IndexValue.mk k f ∈ iv :: ivs) := by
                intro hh
                rcases List.mem_cons.mp hh with hh | hh
                · exact hfv (congrArg IndexValue.Value hh)
                · exact hmem hh
              rw [if_neg (fun hh => hnmem hh.2), hki]
        · rw [hstep, ih'.2.1, hset, setFieldOf_Largest, hki]
        · rw [hstep, ih'.2.2, hset, setFieldOf_Interacting, hki]
      · have hset : (fr.set iv.Index (setFieldOf (fr.getD iv.Index default) iv.Value
            (fieldOf (current.getD iv.Index default) iv.Value))).getD k default =
            fr.getD k default := getD_set_ne (fun h => hki h.symm)
        refine ⟨fun f hf => ?_, ?_, ?_⟩
        · rw [hstep, ih'.1 f hf, hset]
          have hne : ¬ (IndexValue.mk k f = iv) := by
            intro h
            exact hki (congrArg IndexValue.Index h)
          simp only [List.mem_cons, hne, false_or]
        · rw [hstep, ih'.2.1, hset]
        · rw [hstep, ih'.2.2, hset]
    · have hstep : applyIndexed chg current (iv :: ivs) fr =
          applyIndexed chg current ivs fr := by
        simp [applyIndexed, hci]
      have ih' := ih (fun q hq => hv q (by simp [hq])) fr k hk
      refine ⟨fun f hf => ?_, ?_, ?_⟩
      · rw [hstep, ih'.1 f hf]
        by_cases hki : k = iv.Index
        · have hk0 : chg k = false := by
            rw [hki]
            simpa using hci
          simp [hk0]
        · have hne : ¬ (IndexValue.mk k f = iv) := by
            intro h
            exact hki (congrArg IndexValue.Index h)
          simp only [List.mem_cons, hne, false_or]
      · rw [hstep, ih'.2.1]
      · rw [hstep, ih'.2.2]

end pc

namespace pc

theorem deltaExt {x y : Delta} (h1 : x.Largest = y.Largest) (h2 : x.A = y.A)
    (h3 : x.B = y.B) (h4 : x.C = y.C) (h5 : x.X = y.X) (h6 : x.Y = y.Y)
    (h7 : x.Z = y.Z) (h8 : x.Interacting = y.Interacting) : x = y := by
  cases x
  cases y
  simp_all

theorem ReadBools_append {n : ℕ} (chg : List Bool) (rest : List Bool)
    (h : chg.length = n) : ReadBools n (chg ++ rest) = (chg, rest) := by
  simp only [ReadBools]
  rw [List.take_left' h, List.drop_left' h]
  have h0 : n - (chg ++ rest).length = 0 := by
    rw [List.length_append]
    omega
  rw [h0]
  simp

theorem changedFlags_length (baseline current : List Delta) :
    (changedFlags baseline current).length = baseline.length := by
  simp [changedFlags]

theorem changedFlags_getD (baseline current : List Delta) {k : ℕ}
    (hk : k < baseline.length) :
    (changedFlags baseline current).getD k false =
      decide (¬ baseline.getD k default = current.getD k default) := by
  simp only [changedFlags, List.getD_eq_getElem?_getD, List.getElem?_map,
    List.getElem?_range hk]
  rfl

theorem changedFlags_getD_ge (baseline current : List Delta) {k : ℕ}
    (hk : baseline.length ≤ k) :
    (changedFlags baseline current).getD k false = false := by
  rw [List.getD_eq_getElem?_getD]
  have hnone : (changedFlags baseline current)[k]? = none := by
    rw [List.getElem?_eq_none]
    rw [changedFlags_length]
    exact hk
  rw [hnone]
  rfl

theorem validCube_fieldOf {d : Delta} (h : validCube d) {f : ℕ} (hf : f < 6) :
    -(2 ^ 31) ≤ fieldOf d f ∧ fieldOf d f < 2 ^ 31 := by
  obtain ⟨g1, g2, g3, g4, g5, g6, g7, g8, g9, g10, g11, g12, g13, g14, g15⟩ := h
  rcases f with _ | _ | _ | _ | _ | _ | f
  · exact ⟨g4, g5⟩
  · exact ⟨g6, g7⟩
  · exact ⟨g8, g9⟩
  · exact ⟨g10, g11⟩
  · exact ⟨g12, g13⟩
  · exact ⟨g14, g15⟩
  · omega

end pc

/-- C1: round trip of the snapshot codec.  For every baseline/current pair
of equal length whose cubes are in the data-model domain (`Largest` a
2-bit enum, `Interacting` a 0/1 flag, positions/orientations int32), and
every shared Ordering state whose tables genuinely cover the index domain
(as `NewOrdering` builds them and `Improve` — a permutation — preserves
them: the object permutations contain every object, the `ABC`/`XYZ`
tables carry field ids 0-2/3-5 and contain every (object, field) pair),
decoding the bits produced by encoding `current` against `baseline`
reconstructs `current` exactly, field for field, for every cube. -/
theorem claim_C1_roundtrip (ord : pc.Ordering) (baseline current : List Delta)
    (hlen : baseline.length = current.length)
    (hvb : ∀ k, k < baseline.length → pc.validCube (baseline.getD k default))
    (hvc : ∀ k, k < baseline.length → pc.validCube (current.getD k default))
    (hLc : ∀ k, k < baseline.length → k ∈ ord.Largest)
    (hIc : ∀ k, k < baseline.length → k ∈ ord.Interacting)
    (hABCv : ∀ iv ∈ ord.ABC, iv.Value < 3)
    (hABCc : ∀ k, k < baseline.length → ∀ f, f < 3 → pc.IndexValue.mk k f ∈ ord.ABC)
    (hXYZv : ∀ iv ∈ ord.XYZ, 3 ≤ iv.Value ∧ iv.Value < 6)
    (hXYZc : ∀ k, k < baseline.length → ∀ f, 3 ≤ f → f < 6 →
      pc.IndexValue.mk k f ∈ ord.XYZ) :
    pc.Decode ord baseline (pc.Encode ord baseline current) = current := by
  have hchgtrue : ∀ i, ((pc.changedFlags baseline current).getD i false) = true →
      i < baseline.length := by
    intro i hi
    by_contra hc
    rw [pc.changedFlags_getD_ge baseline current (by omega)] at hi
    exact absurd hi (by simp)
  have hdomL : ∀ i, ((pc.changedFlags baseline current).getD i false) = true →
      0 ≤ (baseline.getD i default).Largest ∧ (baseline.getD i default).Largest < 4 ∧
        0 ≤ (current.getD i default).Largest ∧ (current.getD i default).Largest < 4 := by
    intro i hi
    have hiN := hchgtrue i hi
    exact ⟨(hvb i hiN).1, (hvb i hiN).2.1, (hvc i hiN).1, (hvc i hiN).2.1⟩
  have hdomI : ∀ i, ((pc.changedFlags baseline current).getD i false) = true →
      ((baseline.getD i default).Interacting = 0 ∨
        (baseline.getD i default).Interacting = 1) ∧
        ((current.getD i default).Interacting = 0 ∨
          (current.getD i default).Interacting = 1) := by
    intro i hi
    have hiN := hchgtrue i hi
    exact ⟨(hvb i hiN).2.2.1, (hvc i hiN).2.2.1⟩
  have hdomF : ∀ i, ((pc.changedFlags baseline current).getD i false) = true →
      ∀ f, f < 6 →
      -(2 ^ 31) ≤ pc.fieldOf (baseline.getD i default) f ∧
        pc.fieldOf (baseline.getD i default) f < 2 ^ 31 ∧
        -(2 ^ 31) ≤ pc.fieldOf (current.getD i default) f ∧
        pc.fieldOf (current.getD i default) f < 2 ^ 31 := by
    intro i hi f hf
    have hiN := hchgtrue i hi
    have hb := pc.validCube_fieldOf (hvb i hiN) hf
    have hc := pc.validCube_fieldOf (hvc i hiN) hf
    exact ⟨hb.1, hb.2, hc.1, hc.2⟩
  have hABC6 : ∀ iv ∈ ord.ABC, iv.Value < 6 := by
    intro iv hiv
    have := hABCv iv hiv
    omega
  have hXYZ6 : ∀ iv ∈ ord.XYZ, iv.Value < 6 := fun iv hiv => (hXYZv iv hiv).2
  have h1 := pc.readLargest_rt baseline current
    (fun i => (pc.changedFlags baseline current).getD i false) hdomL ord.Largest baseline
    (pc.writeInteracting ord.Interacting
        (fun i => (pc.changedFlags baseline current).getD i false) baseline current ++
      (pc.WriteIndexed ord.ABC
          (fun i => (pc.changedFlags baseline current).getD i false) baseline current ++
        pc.WriteIndexed ord.XYZ
          (fun i => (pc.changedFlags baseline current).getD i false) baseline current))
  have h2 := pc.readInteracting_rt baseline current
    (fun i => (pc.changedFlags baseline current).getD i false) hdomI ord.Interacting
    (pc.applyLargest (fun i => (pc.changedFlags baseline current).getD i false) current
      ord.Largest baseline)
    (pc.WriteIndexed ord.ABC
        (fun i => (pc.changedFlags baseline current).getD i false) baseline current ++
      pc.WriteIndexed ord.XYZ
        (fun i => (pc.changedFlags baseline current).getD i false) baseline current)
  have h3 := pc.ReadIndexed_rt baseline current
    (fun i => (pc.changedFlags baseline current).getD i false) hdomF ord.ABC hABC6
    (pc.applyInteracting (fun i => (pc.changedFlags baseline current).getD i false) current
      ord.Interacting
      (pc.applyLargest (fun i => (pc.changedFlags baseline current).getD i false) current
        ord.Largest baseline))
    (pc.WriteIndexed ord.XYZ
      (fun i => (pc.changedFlags baseline current).getD i false) baseline current)
  have h4 := pc.ReadIndexed_rt baseline current
    (fun i => (pc.changedFlags baseline current).getD i false) hdomF ord.XYZ hXYZ6
    (pc.applyIndexed (fun i => (pc.changedFlags baseline current).getD i false) current
      ord.ABC
      (pc.applyInteracting (fun i => (pc.changedFlags baseline current).getD i false)
        current ord.Interacting
        (pc.applyLargest (fun i => (pc.changedFlags baseline current).getD i false) current
          ord.Largest baseline))) []
  rw [List.append_nil] at h4
  have hEnc : pc.Encode ord baseline current =
      pc.changedFlags baseline current ++
        (pc.writeLargest ord.Largest
            (fun i => (pc.changedFlags baseline current).getD i false) baseline current ++
          (pc.writeInteracting ord.Interacting
              (fun i => (pc.changedFlags baseline current).getD i false) baseline current ++
            (pc.WriteIndexed ord.ABC
                (fun i => (pc.changedFlags baseline current).getD i false) baseline
                current ++
              pc.WriteIndexed ord.XYZ
                (fun i => (pc.changedFlags baseline current).getD i false) baseline
                current))) := by
    simp only [pc.Encode, pc.WriteBools, List.append_assoc]
  have hRB := pc.ReadBools_append (n := baseline.length)
    (pc.changedFlags baseline current)
    (pc.writeLargest ord.Largest
        (fun i => (pc.changedFlags baseline current).getD i false) baseline current ++
      (pc.writeInteracting ord.Interacting
          (fun i => (pc.changedFlags baseline current).getD i false) baseline current ++
        (pc.WriteIndexed ord.ABC
            (fun i => (pc.changedFlags baseline current).getD i false) baseline current ++
          pc.WriteIndexed ord.XYZ
            (fun i => (pc.changedFlags baseline current).getD i false) baseline current)))
    (pc.changedFlags_length baseline current)
  have hdec : pc.Decode ord baseline (pc.Encode ord baseline current) =
      pc.applyIndexed (fun i => (pc.changedFlags baseline current).getD i false) current
        ord.XYZ
        (pc.applyIndexed (fun i => (pc.changedFlags baseline current).getD i false) current
          ord.ABC
          (pc.applyInteracting (fun i => (pc.changedFlags baseline current).getD i false)
            current ord.Interacting
            (pc.applyLargest (fun i => (pc.changedFlags baseline current).getD i false)
              current ord.Largest baseline))) := by
    simp only [pc.Decode, hEnc, hRB, h1, h2, h3, h4]
  rw [hdec]
  have hlF1 : (pc.applyLargest (fun i => (pc.changedFlags baseline current).getD i false)
      current ord.Largest baseline).length = baseline.length :=
    pc.applyLargest_length _ _ _ _
  have hlF2 : (pc.applyInteracting (fun i => (pc.changedFlags baseline current).getD i false)
      current ord.Interacting
      (pc.applyLargest (fun i => (pc.changedFlags baseline current).getD i false) current
        ord.Largest baseline)).length = baseline.length := by
    rw [pc.applyInteracting_length, hlF1]
  have hlF3 : (pc.applyIndexed (fun i => (pc.changedFlags baseline current).getD i false)
      current ord.ABC
      (pc.applyInteracting (fun i => (pc.changedFlags baseline current).getD i false)
        current ord.Interacting
        (pc.applyLargest (fun i => (pc.changedFlags baseline current).getD i false) current
          ord.Largest baseline))).length = baseline.length := by
    rw [pc.applyIndexed_length, hlF2]
  have hlen4 : (pc.applyIndexed (fun i => (pc.changedFlags baseline current).getD i false)
      current ord.XYZ
      (pc.applyIndexed (fun i => (pc.changedFlags baseline current).getD i false) current
        ord.ABC
        (pc.applyInteracting (fun i => (pc.changedFlags baseline current).getD i false)
          current ord.Interacting
          (pc.applyLargest (fun i => (pc.changedFlags baseline current).getD i false)
            current ord.Largest baseline)))).length = current.length := by
    rw [pc.applyIndexed_length, hlF3, hlen]
  apply List.ext_getElem hlen4
  intro k hk1 hk2
  have hkN : k < baseline.length := by
    rw [hlen4] at hk1
    omega
  rw [← pc.getD_eq_getElem hk1, ← pc.getD_eq_getElem hk2]
  have hch3 := pc.applyIndexed_getD
    (fun i => (pc.changedFlags baseline current).getD i false) current ord.ABC hABC6
    (pc.applyInteracting (fun i => (pc.changedFlags baseline current).getD i false) current
      ord.Interacting
      (pc.applyLargest (fun i => (pc.changedFlags baseline current).getD i false) current
        ord.Largest baseline)) k (by rw [hlF2]; exact hkN)
  have hch4 := pc.applyIndexed_getD
    (fun i => (pc.changedFlags baseline current).getD i false) current ord.XYZ hXYZ6
    (pc.applyIndexed (fun i => (pc.changedFlags baseline current).getD i false) current
      ord.ABC
      (pc.applyInteracting (fun i => (pc.changedFlags baseline current).getD i false)
        current ord.Interacting
        (pc.applyLargest (fun i => (pc.changedFlags baseline current).getD i false) current
          ord.Largest baseline))) k (by rw [hlF3]; exact hkN)
  have hcharL := pc.applyLargest_getD
    (fun i => (pc.changedFlags baseline current).getD i false) current ord.Largest baseline
    k hkN
  have hcharI := pc.applyInteracting_getD
    (fun i => (pc.changedFlags baseline current).getD i false) current ord.Interacting
    (pc.applyLargest (fun i => (pc.changedFlags baseline current).getD i false) current
      ord.Largest baseline) k (by rw [hlF1]; exact hkN)
  by_cases hchg : ((pc.changedFlags baseline current).getD k false) = true
  · rw [if_pos ⟨hchg, hLc k hkN⟩] at hcharL
    rw [if_pos ⟨hchg, hIc k hkN⟩] at hcharI
    have hnmem0 : ∀ f, f < 3 →
        ¬ (((pc.changedFlags baseline current).getD k false) = true ∧
          pc.IndexValue.mk k f ∈ ord.XYZ) := by
      intro f hf hh
      have h3f := (hXYZv _ hh.2).1
      have hval : (pc.IndexValue.mk k f).Value = f := rfl
      rw [hval] at h3f
      omega
    have hnmem3 : ∀ f, 3 ≤ f → f < 6 →
        ¬ (((pc.changedFlags baseline current).getD k false) = true ∧
          pc.IndexValue.mk k f ∈ ord.ABC) := by
      intro f hf3 hf6 hh
      have h3f := hABCv _ hh.2
      have hval : (pc.IndexValue.mk k f).Value = f := rfl
      rw [hval] at h3f
      omega
    apply pc.deltaExt
    · rw [hch4.2.1, hch3.2.1, hcharI, hcharL]
    · show pc.fieldOf _ 0 = pc.fieldOf (current.getD k default) 0
      rw [hch4.1 0 (by norm_num), if_neg (hnmem0 0 (by norm_num)),
        hch3.1 0 (by norm_num), if_pos ⟨hchg, hABCc k hkN 0 (by norm_num)⟩]
    · show pc.fieldOf _ 1 = pc.fieldOf (current.getD k default) 1
      rw [hch4.1 1 (by norm_num), if_neg (hnmem0 1 (by norm_num)),
        hch3.1 1 (by norm_num), if_pos ⟨hchg, hABCc k hkN 1 (by norm_num)⟩]
    · show pc.fieldOf _ 2 = pc.fieldOf (current.getD k default) 2
      rw [hch4.1 2 (by norm_num), if_neg (hnmem0 2 (by norm_num)),
        hch3.1 2 (by norm_num), if_pos ⟨hchg, hABCc k hkN 2 (by norm_num)⟩]
    · show pc.fieldOf _ 3 = pc.fieldOf (current.getD k default) 3
      rw [hch4.1 3 (by norm_num),
        if_pos ⟨hchg, hXYZc k hkN 3 (by norm_num) (by norm_num)⟩]
    · show pc.fieldOf _ 4 = pc.fieldOf (current.getD k default) 4
      rw [hch4.1 4 (by norm_num),
        if_pos ⟨hchg, hXYZc k hkN 4 (by norm_num) (by norm_num)⟩]
    · show pc.fieldOf _ 5 = pc.fieldOf (current.getD k default) 5
      rw [hch4.1 5 (by norm_num),
        if_pos ⟨hchg, hXYZc k hkN 5 (by norm_num) (by norm_num)⟩]
    · rw [hch4.2.2, hch3.2.2, hcharI]
  · have hchgf : ((pc.changedFlags baseline current).getD k false) = false := by
      rw [← Bool.not_eq_true]
      exact hchg
    have hbe : baseline.getD k default = current.getD k default := by
      have hcf := pc.changedFlags_getD baseline current hkN
      rw [hchgf] at hcf
      simpa using hcf.symm
    have hcfalse : ∀ (p : Prop),
        ¬ (((pc.changedFlags baseline current).getD k false) = true ∧ p) := by
      intro p hh
      rw [hchgf] at hh
      exact absurd hh.1 (by simp)
    rw [if_neg (hcfalse _)] at hcharL
    rw [if_neg (hcfalse _)] at hcharI
    apply pc.deltaExt
    · rw [hch4.2.1, hch3.2.1, hcharI, hcharL, hbe]
    · show pc.fieldOf _ 0 = pc.fieldOf (current.getD k default) 0
      rw [hch4.1 0 (by norm_num), if_neg (hcfalse _), hch3.1 0 (by norm_num),
        if_neg (hcfalse _), hcharI, hcharL, hbe]
    · show pc.fieldOf _ 1 = pc.fieldOf (current.getD k default) 1
      rw [hch4.1 1 (by norm_num), if_neg (hcfalse _), hch3.1 1 (by norm_num),
        if_neg (hcfalse _), hcharI, hcharL, hbe]
    · show pc.fieldOf _ 2 = pc.fieldOf (current.getD k default) 2
      rw [hch4.1 2 (by norm_num), if_neg (hcfalse _), hch3.1 2 (by norm_num),
        if_neg (hcfalse _), hcharI, hcharL, hbe]
    · show pc.fieldOf _ 3 = pc.fieldOf (current.getD k default) 3
      rw [hch4.1 3 (by norm_num), if_neg (hcfalse _), hch3.1 3 (by norm_num),
        if_neg (hcfalse _), hcharI, hcharL, hbe]
    · show pc.fieldOf _ 4 = pc.fieldOf (current.getD k default) 4
      rw [hch4.1 4 (by norm_num), if_neg (hcfalse _), hch3.1 4 (by norm_num),
        if_neg (hcfalse _), hcharI, hcharL, hbe]
    · show pc.fieldOf _ 5 = pc.fieldOf (current.getD k default) 5
      rw [hch4.1 5 (by norm_num), if_neg (hcfalse _), hch3.1 5 (by norm_num),
        if_neg (hcfalse _), hcharI, hcharL, hbe]
    · rw [hch4.2.2, hch3.2.2, hcharI, hcharL, hbe]

theorem claim_C1_witness :
    [Delta.mk 0 0 0 0 0 0 0 0].length = [Delta.mk 1 2 0 0 3 0 0 1].length ∧
    pc.Decode (pc.NewOrdering [Delta.mk 0 0 0 0 0 0 0 0]) [Delta.mk 0 0 0 0 0 0 0 0]
      (pc.Encode (pc.NewOrdering [Delta.mk 0 0 0 0 0 0 0 0]) [Delta.mk 0 0 0 0 0 0 0 0]
        [Delta.mk 1 2 0 0 3 0 0 1]) = [Delta.mk 1 2 0 0 3 0 0 1] :=
  ⟨by decide,
    claim_C1_roundtrip (pc.NewOrdering [Delta.mk 0 0 0 0 0 0 0 0])
      [Delta.mk 0 0 0 0 0 0 0 0] [Delta.mk 1 2 0 0 3 0 0 1]
      (by decide) (by decide) (by decide) (by decide) (by decide) (by decide)
      (by decide) (by decide) (by decide)⟩
